import Mathlib

set_option linter.unusedVariables false

/-!
Verification development for the arxiv-triage ingestion core.

The Python source is embedded shallowly:

* `announced_date` embeds `_announced_date` from `server/routers/papers.py`
  (with `next_weekday` embedding its inner helper);
* the upsert/dedup store embeds `upsert_papers` from `server/services/ingest.py`;
* `parse_oai_record`, `harvest_oai_category` (over a mocked page sequence) and
  `ingest_oai` embed `server/services/oai.py`;
* the windowed fetch filter embeds the per-entry pipeline of `fetch_arxiv`
  from `server/services/ingest.py`.

Dates are proleptic-Gregorian day numbers with day 0 = 0001-01-01 (a Monday),
so `day % 7` is exactly Python's `date.weekday()` (Mon=0 .. Sun=6).  Instants
are seconds since 0001-01-01T00:00:00 UTC, as integers.  Lean's `Int` `/` and
`%` are Euclidean division, which agrees with Python's `//` and `%` for the
positive divisors used here.
-/

/-- Leap year test, proleptic Gregorian (as Python's `calendar`/`datetime`). -/
def isLeap (y : Nat) : Bool := (y % 4 == 0 && y % 100 != 0) || (y % 400 == 0)

/-- Cumulative days before month `m` (1-12) in a non-leap year. -/
def daysBeforeMonth (m : Nat) : Nat :=
  [0, 0, 31, 59, 90, 120, 151, 181, 212, 243, 273, 304, 334].getD m 0

/-- Length of month `m` of year `y`. -/
def daysInMonth (y m : Nat) : Nat :=
  if m = 2 then (if isLeap y then 29 else 28)
  else [0, 31, 28, 31, 30, 31, 30, 31, 31, 30, 31, 30, 31].getD m 0

/-- Day number of civil date `y-m-d` (day 0 = 0001-01-01). -/
def daysFromCivil (y m d : Nat) : Nat :=
  ((y - 1) * 365 + (y - 1) / 4 + (y - 1) / 400 - (y - 1) / 100)
    + (daysBeforeMonth m + (if 2 < m ∧ isLeap y then 1 else 0)) + (d - 1)

/-- Inverse of `daysFromCivil`: civil date `(y, m, d)` of a day number
(shifted to the March-based era algorithm internally). -/
def civilFromDays (d : Int) : Nat × Nat × Nat :=
  let z : Nat := (d + 306).toNat
  let era := z / 146097
  let doe := z % 146097
  let yoe := ((doe - doe / 1460 + doe / 36524) - doe / 146096) / 365
  let y0 := yoe + era * 400
  let doy := doe - (365 * yoe + yoe / 4 - yoe / 100)
  let mp := (5 * doy + 2) / 153
  let dd := doy - (153 * mp + 2) / 5 + 1
  let mm := if mp < 10 then mp + 3 else mp - 9
  (if mm ≤ 2 then y0 + 1 else y0, mm, dd)

/-- Zero-pad a number to two digits (as Python `date.isoformat` does). -/
def pad2 (n : Nat) : String := if n < 10 then "0" ++ toString n else toString n

/-- Zero-pad a number to four digits (as Python `date.isoformat` does). -/
def pad4 (n : Nat) : String :=
  if n < 10 then "000" ++ toString n
  else if n < 100 then "00" ++ toString n
  else if n < 1000 then "0" ++ toString n
  else toString n

/-- ISO `YYYY-MM-DD` rendering of a day number (Python `date.isoformat()`). -/
def isoDate (d : Int) : String :=
  match civilFromDays d with
  | (y, m, dd) => pad4 y ++ "-" ++ pad2 m ++ "-" ++ pad2 dd

/-- A parsed timestamp: civil day number, seconds into the day, and an
optional UTC offset in seconds (`none` = naive, no `tzinfo`). -/
structure ParsedStamp where
  day : Nat
  sec : Nat
  offset : Option Int
deriving DecidableEq, Repr

/-- Numeric value of a decimal digit character. -/
def digitVal (c : Char) : Nat := c.toNat - 48

/-- Read exactly two decimal digits. -/
def digits2 : List Char → Option (Nat × List Char)
  | a :: b :: rest =>
    if a.isDigit && b.isDigit then some (digitVal a * 10 + digitVal b, rest) else none
  | _ => none

/-- Read exactly four decimal digits. -/
def digits4 : List Char → Option (Nat × List Char)
  | a :: b :: c :: d :: rest =>
    if a.isDigit && b.isDigit && c.isDigit && d.isDigit then
      some (((digitVal a * 10 + digitVal b) * 10 + digitVal c) * 10 + digitVal d, rest)
    else none
  | _ => none

/-- Expect one specific character. -/
def expectChar (c : Char) : List Char → Option (List Char)
  | x :: rest => if x = c then some rest else none
  | [] => none

/-- Read `HH:MM:SS` as seconds into the day. -/
def parseTimePart (l : List Char) : Option (Nat × List Char) :=
  match digits2 l with
  | none => none
  | some (hh, l1) =>
    match expectChar ':' l1 with
    | none => none
    | some l2 =>
      match digits2 l2 with
      | none => none
      | some (mi, l3) =>
        match expectChar ':' l3 with
        | none => none
        | some l4 =>
          match digits2 l4 with
          | none => none
          | some (ss, l5) =>
            if hh < 24 ∧ mi < 60 ∧ ss < 60 then some (hh * 3600 + mi * 60 + ss, l5) else none

/-- Read the trailing timezone designator: nothing (naive), `Z`, or `±HH:MM`. -/
def parseOffsetPart (l : List Char) : Option (Option Int) :=
  match l with
  | [] => some none
  | ['Z'] => some (some 0)
  | c :: rest =>
    if c = '+' ∨ c = '-' then
      match digits2 rest with
      | none => none
      | some (hh, l1) =>
        match expectChar ':' l1 with
        | none => none
        | some l2 =>
          match digits2 l2 with
          | none => none
          | some (mi, l3) =>
            if l3 = [] ∧ hh < 24 ∧ mi < 60 then
              some (some ((if c = '+' then 1 else -1) * ((hh : Int) * 3600 + (mi : Int) * 60)))
            else none
    else none

/-- Modelled from the spec: the third-party timestamp parser (`dateutil.parser.parse`),
which is not part of this repository; restricted to the ISO-8601 subset
`YYYY-MM-DD[{T or space}HH:MM:SS[Z or ±HH:MM]]` that the feeds and the spec's
boundary table use.  Returns `none` on anything else (the callers treat a parse
failure as an exception). -/
def parseDT (s : String) : Option ParsedStamp :=
  match digits4 s.data with
  | none => none
  | some (y, l1) =>
    match expectChar '-' l1 with
    | none => none
    | some l2 =>
      match digits2 l2 with
      | none => none
      | some (m, l3) =>
        match expectChar '-' l3 with
        | none => none
        | some l4 =>
          match digits2 l4 with
          | none => none
          | some (d, l5) =>
            if 1 ≤ y ∧ 1 ≤ m ∧ m ≤ 12 ∧ 1 ≤ d ∧ d ≤ daysInMonth y m then
              match l5 with
              | [] => some ⟨daysFromCivil y m d, 0, none⟩
              | sep :: l6 =>
                if sep = 'T' ∨ sep = ' ' then
                  match parseTimePart l6 with
                  | none => none
                  | some (sec, l7) =>
                    match parseOffsetPart l7 with
                    | none => none
                    | some off => some ⟨daysFromCivil y m d, sec, off⟩
                else none
            else none

/-- UTC instant (seconds) of a parsed stamp; a naive stamp is assumed UTC,
as both `_announced_date` and `fetch_arxiv._to_utc` do. -/
def toUTC (p : ParsedStamp) : Int :=
  (p.day : Int) * 86400 + (p.sec : Int) - (p.offset.getD 0)

/-- Modelled from the spec: the America/New_York civil-time conversion performed
by the third-party `dateutil.tz` database (not part of this repository).
Returns the seconds to subtract from UTC: 14400 (EDT) between the second Sunday
of March 02:00 EST (07:00 UTC) and the first Sunday of November 02:00 EDT
(06:00 UTC), else 18000 (EST); the post-2007 US rule. -/
def etOffsetWestSec (utc : Int) : Int :=
  let day := utc / 86400
  let y := (civilFromDays day).1
  let march1 := daysFromCivil y 3 1
  let dstStartDay := march1 + ((6 + 7 - march1 % 7) % 7) + 7
  let nov1 := daysFromCivil y 11 1
  let dstEndDay := nov1 + ((6 + 7 - nov1 % 7) % 7)
  if (dstStartDay : Int) * 86400 + 25200 ≤ utc ∧ utc < (dstEndDay : Int) * 86400 + 21600 then
    14400
  else 18000

/-- ET-local day number of a UTC instant. -/
def etLocalDay (utc : Int) : Int := (utc - etOffsetWestSec utc) / 86400

/-- ET-local seconds into the day of a UTC instant. -/
def etLocalTod (utc : Int) : Nat := ((utc - etOffsetWestSec utc) % 86400).toNat

/-- Embeds `next_weekday` from `_announced_date` (`server/routers/papers.py`):
`base + ((target_wd - base.weekday()) % 7)` days, on day numbers. -/
def next_weekday (base : Int) (target : Int) : Int :=
  base + (target - base % 7) % 7

/-- The weekday policy of `_announced_date` on the ET-local day number and
seconds-into-day; cutoff 14:00 = 50400 s.  The final `none` mirrors the
(unreachable) trailing `return None` of the Python code. -/
def announcedDay (d : Int) (tod : Nat) : Option Int :=
  let wd := d % 7
  if wd = 0 then some (if tod < 50400 then d else d + 1)
  else if wd = 1 then some (if tod < 50400 then d else d + 1)
  else if wd = 2 then some (if tod < 50400 then d else d + 1)
  else if wd = 3 then (if tod < 50400 then some d else some (next_weekday d 6))
  else if wd = 4 then (if tod < 50400 then some (next_weekday d 6) else some (next_weekday d 0))
  else if wd = 5 then some (next_weekday d 0)
  else if wd = 6 then some (next_weekday d 0)
  else none

/-- Embeds `_announced_date` (`server/routers/papers.py`): parse, convert to
America/New_York, apply the weekday/cutoff policy, render ISO.  `none` for a
missing/empty/unparsable input (the Python code swallows every exception). -/
def announced_date (submitted_iso : Option String) : Option String :=
  match submitted_iso with
  | none => none
  | some s =>
    if s = "" then none
    else
      match parseDT s with
      | none => none
      | some p =>
        (announcedDay (etLocalDay (toUTC p)) (etLocalTod (toUTC p))).map isoDate

/-- C9: the `next_weekday` helper adds exactly `(target - weekday) mod 7` days:
the result falls on the target weekday, is between the base date and base + 6,
and equals the base date itself when the base already falls on the target
weekday (offset 0, not the strictly-next occurrence). -/
theorem next_weekday_spec (d t : Int) (h0 : 0 ≤ t) (h7 : t < 7) :
    (next_weekday d t) % 7 = t ∧ d ≤ next_weekday d t ∧ next_weekday d t ≤ d + 6 ∧
      (d % 7 = t → next_weekday d t = d) := by
  unfold next_weekday
  omega

/-- Witness for C9 at base day 3 (a Thursday) and target 6 (Sunday). -/
theorem next_weekday_spec_witness :
    (next_weekday 3 6) % 7 = 6 ∧ (3 : Int) ≤ next_weekday 3 6 ∧
      next_weekday 3 6 ≤ 3 + 6 ∧ ((3 : Int) % 7 = 6 → next_weekday 3 6 = 3) :=
  next_weekday_spec 3 6 (by decide) (by decide)

/-- C1: `_announced_date` converts a parsed timestamp to America/New_York local
time and applies the fixed 14:00 cutoff policy: Mon/Tue/Wed before the cutoff
map to the same day, at/after to the next day; Thu before the cutoff to the
same day, at/after to the next Sunday; Fri before the cutoff to the next
Sunday, at/after to the next Monday; Sat and Sun always to the next Monday;
the result is rendered as an ISO `YYYY-MM-DD` string, reproducing the
boundary table. -/
theorem announced_date_spec :
    (∀ s p, parseDT s = some p →
        announced_date (some s)
          = (announcedDay (etLocalDay (toUTC p)) (etLocalTod (toUTC p))).map isoDate) ∧
    (∀ (d : Int) (tod : Nat), tod < 86400 →
      (((d % 7 = 0 ∨ d % 7 = 1 ∨ d % 7 = 2) ∧ tod < 50400 →
          announcedDay d tod = some d) ∧
       ((d % 7 = 0 ∨ d % 7 = 1 ∨ d % 7 = 2) ∧ 50400 ≤ tod →
          announcedDay d tod = some (d + 1)) ∧
       (d % 7 = 3 ∧ tod < 50400 → announcedDay d tod = some d) ∧
       (d % 7 = 3 ∧ 50400 ≤ tod →
          ∃ r, announcedDay d tod = some r ∧ r % 7 = 6 ∧ d < r ∧ r ≤ d + 6) ∧
       (d % 7 = 4 ∧ tod < 50400 →
          ∃ r, announcedDay d tod = some r ∧ r % 7 = 6 ∧ d < r ∧ r ≤ d + 6) ∧
       (d % 7 = 4 ∧ 50400 ≤ tod →
          ∃ r, announcedDay d tod = some r ∧ r % 7 = 0 ∧ d < r ∧ r ≤ d + 6) ∧
       ((d % 7 = 5 ∨ d % 7 = 6) →
          ∃ r, announcedDay d tod = some r ∧ r % 7 = 0 ∧ d < r ∧ r ≤ d + 6))) ∧
    announced_date (some "2024-09-16T17:59:00Z") = some "2024-09-16" ∧
    announced_date (some "2024-09-16T18:00:00Z") = some "2024-09-17" ∧
    announced_date (some "2024-09-19T18:00:00Z") = some "2024-09-22" ∧
    announced_date (some "2024-09-20T17:59:00Z") = some "2024-09-22" ∧
    announced_date (some "2024-09-20T18:00:00Z") = some "2024-09-23" ∧
    announced_date (some "2024-09-21T14:00:00Z") = some "2024-09-23" ∧
    announced_date (some "2024-09-22T14:00:00Z") = some "2024-09-23" := by
  refine ⟨?_, ?_, rfl, rfl, rfl, rfl, rfl, rfl, rfl⟩
  · intro s p hp
    have hs : s ≠ "" := by
      intro h
      rw [h] at hp
      exact Option.noConfusion hp
    simp [announced_date, hp, if_neg hs]
  · intro d tod htod
    have hwd : d % 7 = 0 ∨ d % 7 = 1 ∨ d % 7 = 2 ∨ d % 7 = 3 ∨ d % 7 = 4 ∨
        d % 7 = 5 ∨ d % 7 = 6 := by omega
    refine ⟨?_, ?_, ?_, ?_, ?_, ?_, ?_⟩
    · rintro ⟨h, hc⟩
      rcases h with h | h | h <;> simp [announcedDay, h, hc]
    · rintro ⟨h, hc⟩
      rcases h with h | h | h <;> simp [announcedDay, h, show ¬ tod < 50400 by omega]
    · rintro ⟨h, hc⟩
      simp [announcedDay, h, hc]
    · rintro ⟨h, hc⟩
      refine ⟨next_weekday d 6, ?_, by unfold next_weekday; omega⟩
      simp [announcedDay, h, show ¬ tod < 50400 by omega]
    · rintro ⟨h, hc⟩
      refine ⟨next_weekday d 6, ?_, by unfold next_weekday; omega⟩
      simp [announcedDay, h, hc]
    · rintro ⟨h, hc⟩
      refine ⟨next_weekday d 0, ?_, by unfold next_weekday; omega⟩
      simp [announcedDay, h, show ¬ tod < 50400 by omega]
    · rintro h
      rcases h with h | h
      · exact ⟨next_weekday d 0, by simp [announcedDay, h], by unfold next_weekday; omega⟩
      · exact ⟨next_weekday d 0, by simp [announcedDay, h], by unfold next_weekday; omega⟩

/-- Witness for C1: the pipeline equation at the Monday-after-cutoff boundary
input, and the weekday policy at a concrete Thursday-after-cutoff local time. -/
theorem announced_date_spec_witness :
    announced_date (some "2024-09-16T18:00:00Z")
        = (announcedDay (etLocalDay (toUTC ⟨739144, 64800, some 0⟩))
            (etLocalTod (toUTC ⟨739144, 64800, some 0⟩))).map isoDate ∧
    announcedDay 3 50400 = some 6 := by
  constructor
  · exact announced_date_spec.1 "2024-09-16T18:00:00Z" ⟨739144, 64800, some 0⟩ rfl
  · have h := (announced_date_spec.2.1 3 50400 (by decide)).2.2.2.1 ⟨by decide, by decide⟩
    rcases h with ⟨r, hr, hr6, hlt, hle⟩
    have : r = 6 := by omega
    rw [this] at hr
    exact hr

/-!
The upsert/dedup store (`upsert_papers`, `server/services/ingest.py`).

A `Payload` is the dict produced by either normalizer (`fetch_arxiv` entries /
`_parse_oai_record`): it carries exactly the keys of the ingestion write-set,
including `extra` (always `{}` from the normalizers).  A `Row` is a stored
`Paper` ORM row: the payload columns plus the store-side columns `tags`,
`signals` and `state` (JSON dicts are modelled as association lists).
-/

/-- A JSON-dict value, modelled as an association list of string pairs. -/
abbrev KVDict := List (String × String)

/-- The normalized record dict both harvesters produce (its exact key set). -/
structure Payload where
  arxiv_id : String
  version : Nat
  title : String
  abstract : String
  authors : String
  categories : String
  primary_category : String
  submitted_at : Option String
  updated_at : Option String
  links_pdf : String
  links_abs : String
  links_html : String
  extra : KVDict
deriving DecidableEq, Repr

/-- A stored `Paper` row (`server/models.py`): payload columns plus the
store-side columns with their column defaults (`tags`/`signals` NULL,
`state` "triage"). -/
structure Row where
  arxiv_id : String
  version : Nat
  title : String
  abstract : String
  authors : String
  categories : String
  primary_category : String
  submitted_at : Option String
  updated_at : Option String
  links_pdf : Option String
  links_abs : Option String
  links_html : Option String
  extra : Option KVDict
  tags : Option KVDict
  signals : Option KVDict
  state : String
deriving DecidableEq, Repr

/-- Natural key of a payload: `(external_id, version)`. -/
def pKey (p : Payload) : String × Nat := (p.arxiv_id, p.version)

/-- Natural key of a stored row. -/
def rKey (r : Row) : String × Nat := (r.arxiv_id, r.version)

/-- The `WHERE arxiv_id = .. AND version = ..` test of `upsert_papers`. -/
def keyMatch (p : Payload) (r : Row) : Bool := rKey r = pKey p

/-- The update branch of `upsert_papers`: `for k, v in p.items(): setattr(row, k, v)`
overwrites every key present in the payload dict — including `extra` — and
leaves the remaining columns (`tags`, `signals`, `state`) as stored. -/
def applyPayload (r : Row) (p : Payload) : Row :=
  { arxiv_id := p.arxiv_id, version := p.version, title := p.title,
    abstract := p.abstract, authors := p.authors, categories := p.categories,
    primary_category := p.primary_category, submitted_at := p.submitted_at,
    updated_at := p.updated_at, links_pdf := some p.links_pdf,
    links_abs := some p.links_abs, links_html := some p.links_html,
    extra := some p.extra, tags := r.tags, signals := r.signals, state := r.state }

/-- The insert branch of `upsert_papers`: `Paper(**p)` populates the payload
columns and leaves the store-side columns at their model defaults. -/
def insertRow (p : Payload) : Row :=
  { arxiv_id := p.arxiv_id, version := p.version, title := p.title,
    abstract := p.abstract, authors := p.authors, categories := p.categories,
    primary_category := p.primary_category, submitted_at := p.submitted_at,
    updated_at := p.updated_at, links_pdf := some p.links_pdf,
    links_abs := some p.links_abs, links_html := some p.links_html,
    extra := some p.extra, tags := none, signals := none, state := "triage" }

/-- Replace the first row matching the payload's key with the updated row. -/
def replaceFirst : List Row → Payload → List Row
  | [], _ => []
  | r :: t, p => if keyMatch p r then applyPayload r p :: t else r :: replaceFirst t p

/-- One iteration of `upsert_papers`: select by `(arxiv_id, version)`,
`scalar_one_or_none` (raises `MultipleResultsFound` when the key is ambiguous),
then update in place or insert a fresh row at the end. -/
def upsert_one (s : List Row) (p : Payload) : Except String (List Row) :=
  match s.filter (keyMatch p) with
  | [] => .ok (s ++ [insertRow p])
  | [_] => .ok (replaceFirst s p)
  | _ => .error "MultipleResultsFound"

/-- Embeds `upsert_papers` (`server/services/ingest.py`): fold `upsert_one`
over the record list. -/
def upsert_papers (s : List Row) (papers : List Payload) : Except String (List Row) :=
  papers.foldlM upsert_one s

/-- Pointwise update step: the effect of one upsert on one row. -/
def step1 (p : Payload) (r : Row) : Row :=
  if keyMatch p r then applyPayload r p else r

/-- Total description of one upsert on a store whose keys are unambiguous. -/
def upsertT (s : List Row) (p : Payload) : List Row :=
  if s.any (keyMatch p) then s.map (step1 p) else s ++ [insertRow p]

/-- Total description of a whole `upsert_papers` run. -/
def runT (s : List Row) (l : List Payload) : List Row := l.foldl upsertT s

/-- Cumulative effect of a record list on a single row. -/
def applyAll (l : List Payload) (r : Row) : Row := l.foldl (fun r p => step1 p r) r

/-- Key uniqueness of a store: all `(external_id, version)` pairs distinct. -/
def NodupKeys (s : List Row) : Prop := (s.map rKey).Nodup

theorem keyMatch_iff (p : Payload) (r : Row) : keyMatch p r = true ↔ rKey r = pKey p := by
  simp [keyMatch]

theorem rKey_applyPayload (r : Row) (p : Payload) : rKey (applyPayload r p) = pKey p := rfl

theorem applyPayload_congr (r1 r2 : Row) (p : Payload)
    (hs : r1.state = r2.state) (ht : r1.tags = r2.tags) (hg : r1.signals = r2.signals) :
    applyPayload r1 p = applyPayload r2 p := by
  simp [applyPayload, hs, ht, hg]

theorem applyPayload_applyPayload (r : Row) (q p : Payload) :
    applyPayload (applyPayload r q) p = applyPayload r p := rfl

theorem applyPayload_insertRow (q p : Payload) :
    applyPayload (insertRow q) p = insertRow p := rfl

theorem step1_of_match (p : Payload) (r : Row) (h : keyMatch p r = true) :
    step1 p r = applyPayload r p := by
  unfold step1
  rw [if_pos h]

theorem step1_of_no_match (p : Payload) (r : Row) (h : keyMatch p r = false) :
    step1 p r = r := by
  unfold step1
  rw [if_neg (by simp [h])]

theorem rKey_step1 (p : Payload) (r : Row) : rKey (step1 p r) = rKey r := by
  cases h : keyMatch p r with
  | true => rw [step1_of_match p r h, rKey_applyPayload, (keyMatch_iff p r).mp h]
  | false => rw [step1_of_no_match p r h]

theorem nonPayload_step1 (p : Payload) (r : Row) :
    (step1 p r).state = r.state ∧ (step1 p r).tags = r.tags ∧
      (step1 p r).signals = r.signals := by
  unfold step1
  split <;> simp [applyPayload]

theorem applyAll_cons (p : Payload) (l : List Payload) (r : Row) :
    applyAll (p :: l) r = applyAll l (step1 p r) := rfl

theorem applyAll_append (l1 l2 : List Payload) (r : Row) :
    applyAll (l1 ++ l2) r = applyAll l2 (applyAll l1 r) := by
  unfold applyAll
  rw [List.foldl_append]

theorem rKey_applyAll (l : List Payload) (r : Row) : rKey (applyAll l r) = rKey r := by
  induction l generalizing r with
  | nil => rfl
  | cons p t ih => rw [applyAll_cons, ih, rKey_step1]

theorem nonPayload_applyAll (l : List Payload) (r : Row) :
    (applyAll l r).state = r.state ∧ (applyAll l r).tags = r.tags ∧
      (applyAll l r).signals = r.signals := by
  induction l generalizing r with
  | nil => exact ⟨rfl, rfl, rfl⟩
  | cons p t ih =>
    obtain ⟨h1, h2, h3⟩ := ih (step1 p r)
    obtain ⟨g1, g2, g3⟩ := nonPayload_step1 p r
    exact ⟨by rw [applyAll_cons, h1, g1], by rw [applyAll_cons, h2, g2],
      by rw [applyAll_cons, h3, g3]⟩

theorem applyPayload_applyAll (l : List Payload) (r : Row) (p : Payload) :
    applyPayload (applyAll l r) p = applyPayload r p := by
  obtain ⟨h1, h2, h3⟩ := nonPayload_applyAll l r
  exact applyPayload_congr _ _ p h1 h2 h3

theorem any_eq_false_iff_filter (p : Payload) (s : List Row) :
    s.any (keyMatch p) = false ↔ s.filter (keyMatch p) = [] := by
  simp [List.any_eq_false, List.filter_eq_nil_iff]

theorem map_step1_of_no_match (p : Payload) (s : List Row)
    (h : ∀ r ∈ s, ¬ keyMatch p r = true) : s.map (step1 p) = s := by
  induction s with
  | nil => rfl
  | cons r t ih =>
    rw [List.map_cons, step1_of_no_match p r (by simpa using h r (by simp)),
      ih (fun x hx => h x (by simp [hx]))]

theorem replaceFirst_eq_map (p : Payload) (s : List Row)
    (h : (s.filter (keyMatch p)).length ≤ 1) : replaceFirst s p = s.map (step1 p) := by
  induction s with
  | nil => rfl
  | cons r t ih =>
    cases hm : keyMatch p r with
    | true =>
      have hft : t.filter (keyMatch p) = [] := by
        rw [List.filter_cons_of_pos hm] at h
        simp only [List.length_cons] at h
        exact List.length_eq_zero.mp (by omega)
      have hall : ∀ x ∈ t, ¬ keyMatch p x = true := List.filter_eq_nil_iff.mp hft
      simp only [replaceFirst, if_pos hm, List.map_cons, step1_of_match p r hm,
        map_step1_of_no_match p t hall]
    | false =>
      rw [List.filter_cons_of_neg (by simp [hm])] at h
      simp only [replaceFirst, hm, Bool.false_eq_true, if_false, List.map_cons,
        step1_of_no_match p r hm, ih h]

theorem nodupKeys_filter_le_one (p : Payload) (s : List Row) (h : NodupKeys s) :
    (s.filter (keyMatch p)).length ≤ 1 := by
  induction s with
  | nil => simp
  | cons r t ih =>
    have hcons := List.nodup_cons.mp h
    cases hm : keyMatch p r with
    | true =>
      rw [List.filter_cons_of_pos hm]
      have hft : t.filter (keyMatch p) = [] := by
        rw [List.filter_eq_nil_iff]
        intro x hx hc
        refine hcons.1 ?_
        have : rKey x = rKey r := by
          rw [(keyMatch_iff p x).mp hc, (keyMatch_iff p r).mp hm]
        rw [← this]
        exact List.mem_map_of_mem rKey hx
      simp [hft]
    | false =>
      rw [List.filter_cons_of_neg (by simp [hm])]
      exact ih hcons.2

theorem upsert_one_eq_upsertT (s : List Row) (p : Payload) (h : NodupKeys s) :
    upsert_one s p = .ok (upsertT s p) := by
  have hle := nodupKeys_filter_le_one p s h
  unfold upsert_one upsertT
  cases hf : s.filter (keyMatch p) with
  | nil =>
    have hany : s.any (keyMatch p) = false := (any_eq_false_iff_filter p s).mpr hf
    rw [hany]
    simp
  | cons a l =>
    cases l with
    | nil =>
      have hany : s.any (keyMatch p) = true := by
        cases hx : s.any (keyMatch p) with
        | false => rw [(any_eq_false_iff_filter p s).mp hx] at hf; cases hf
        | true => rfl
      rw [hany]
      simp [replaceFirst_eq_map p s (by rw [hf]; simp)]
    | cons b l2 =>
      exfalso
      rw [hf] at hle
      simp at hle

theorem map_rKey_upsertT (s : List Row) (p : Payload) :
    (upsertT s p).map rKey
      = if s.any (keyMatch p) then s.map rKey else s.map rKey ++ [pKey p] := by
  unfold upsertT
  split
  · rw [List.map_map]
    exact List.map_congr_left (fun r hr => rKey_step1 p r)
  · simp [insertRow, rKey, pKey]

theorem any_keyMatch_iff (p : Payload) (s : List Row) :
    s.any (keyMatch p) = true ↔ pKey p ∈ s.map rKey := by
  rw [List.any_eq_true]
  constructor
  · rintro ⟨r, hr, hk⟩
    rw [← (keyMatch_iff p r).mp hk]
    exact List.mem_map_of_mem rKey hr
  · intro h
    rcases List.mem_map.mp h with ⟨r, hr, hk⟩
    exact ⟨r, hr, (keyMatch_iff p r).mpr hk⟩

theorem nodupKeys_upsertT (s : List Row) (p : Payload) (h : NodupKeys s) :
    NodupKeys (upsertT s p) := by
  unfold NodupKeys
  rw [map_rKey_upsertT]
  split
  · exact h
  · next hany =>
    rw [List.nodup_append]
    refine ⟨h, List.nodup_singleton _, ?_⟩
    intro k hk hk2
    rw [List.mem_singleton] at hk2
    subst hk2
    exact hany ((any_keyMatch_iff p s).mpr hk)

theorem mem_keys_upsertT (s : List Row) (p : Payload) (k : String × Nat)
    (h : k ∈ s.map rKey) : k ∈ (upsertT s p).map rKey := by
  rw [map_rKey_upsertT]
  split
  · exact h
  · exact List.mem_append_left _ h

theorem mem_keys_upsertT_self (s : List Row) (p : Payload) :
    pKey p ∈ (upsertT s p).map rKey := by
  rw [map_rKey_upsertT]
  split
  · next hany => exact (any_keyMatch_iff p s).mp hany
  · exact List.mem_append_right _ (by simp)

theorem runT_nil (s : List Row) : runT s [] = s := rfl

theorem runT_cons (s : List Row) (p : Payload) (t : List Payload) :
    runT s (p :: t) = runT (upsertT s p) t := rfl

theorem keys_mono_runT (s : List Row) (t : List Payload) (k : String × Nat)
    (h : k ∈ s.map rKey) : k ∈ (runT s t).map rKey := by
  induction t generalizing s with
  | nil => exact h
  | cons p t ih => exact ih (upsertT s p) (mem_keys_upsertT s p k h)

theorem keys_runT (s : List Row) (l : List Payload) :
    ∀ p ∈ l, pKey p ∈ (runT s l).map rKey := by
  induction l generalizing s with
  | nil => simp
  | cons q t ih =>
    intro p hp
    rcases List.mem_cons.mp hp with rfl | hp'
    · exact keys_mono_runT (upsertT s p) t _ (mem_keys_upsertT_self s p)
    · exact ih (upsertT s q) p hp'

theorem runT_eq_map_of_keys (s : List Row) (l : List Payload)
    (h : ∀ p ∈ l, pKey p ∈ s.map rKey) : runT s l = s.map (applyAll l) := by
  induction l generalizing s with
  | nil =>
    rw [runT_nil]
    exact (List.map_id s).symm.trans (List.map_congr_left (fun r _ => rfl))
  | cons p t ih =>
    have hany : s.any (keyMatch p) = true := (any_keyMatch_iff p s).mpr (h p (by simp))
    have h1 : upsertT s p = s.map (step1 p) := by
      unfold upsertT
      rw [if_pos hany]
    have hkeys : ∀ q ∈ t, pKey q ∈ (s.map (step1 p)).map rKey := by
      intro q hq
      rw [List.map_map, show (rKey ∘ step1 p) = rKey from funext (rKey_step1 p)]
      exact h q (List.mem_cons_of_mem p hq)
    rw [runT_cons, h1, ih _ hkeys, List.map_map]
    rfl

theorem applyAll_runT_mem (s : List Row) (l : List Payload) :
    ∀ r ∈ runT s l, applyAll l r = r := by
  induction l using List.reverseRecOn generalizing s with
  | nil => intro r hr; rfl
  | append_singleton t p ih =>
    intro r hr
    rw [show runT s (t ++ [p]) = upsertT (runT s t) p from List.foldl_append _ _ _ _] at hr
    rw [applyAll_append]
    unfold upsertT at hr
    split at hr
    · rcases List.mem_map.mp hr with ⟨r0, hr0, rfl⟩
      have ihr0 := ih s r0 hr0
      cases hm : keyMatch p r0 with
      | true =>
        rw [step1_of_match p r0 hm]
        show step1 p (applyAll t (applyPayload r0 p)) = _
        have hkey : keyMatch p (applyAll t (applyPayload r0 p)) = true :=
          (keyMatch_iff _ _).mpr (by rw [rKey_applyAll, rKey_applyPayload])
        rw [step1_of_match _ _ hkey, applyPayload_applyAll, applyPayload_applyPayload]
      | false =>
        rw [step1_of_no_match p r0 hm, ihr0]
        show step1 p r0 = r0
        rw [step1_of_no_match p r0 hm]
    · next hany =>
      rcases List.mem_append.mp hr with hr' | hr'
      · have hm : keyMatch p r = false := by
          cases hx : keyMatch p r with
          | true => exact absurd (List.any_eq_true.mpr ⟨r, hr', hx⟩) hany
          | false => rfl
        rw [ih s r hr']
        show step1 p r = r
        rw [step1_of_no_match p r hm]
      · rw [List.mem_singleton] at hr'
        subst hr'
        have hkey : keyMatch p (applyAll t (insertRow p)) = true :=
          (keyMatch_iff _ _).mpr (by rw [rKey_applyAll]; rfl)
        show step1 p (applyAll t (insertRow p)) = _
        rw [step1_of_match _ _ hkey, applyPayload_applyAll, applyPayload_insertRow]

theorem upsert_papers_eq_runT (s : List Row) (l : List Payload) (h : NodupKeys s) :
    upsert_papers s l = .ok (runT s l) ∧ NodupKeys (runT s l) := by
  induction l generalizing s with
  | nil => exact ⟨rfl, h⟩
  | cons p t ih =>
    obtain ⟨ha, hb⟩ := ih (upsertT s p) (nodupKeys_upsertT s p h)
    refine ⟨?_, hb⟩
    show (p :: t).foldlM upsert_one s = _
    rw [List.foldlM_cons, upsert_one_eq_upsertT s p h]
    exact ha

theorem runT_idem (s : List Row) (l : List Payload) : runT (runT s l) l = runT s l := by
  rw [runT_eq_map_of_keys (runT s l) l (keys_runT s l)]
  exact (List.map_congr_left (fun r hr => applyAll_runT_mem s l r hr)).trans (List.map_id _)

/-- A concrete normalizer payload (both normalizers emit `extra = {}`). -/
def samplePayload : Payload :=
  { arxiv_id := "2501.00001", version := 1, title := "Title", abstract := "Abs",
    authors := "A. Author", categories := "cs.CV,cs.LG", primary_category := "cs.CV",
    submitted_at := some "2024-09-16T17:59:00Z", updated_at := none,
    links_pdf := "https://arxiv.org/pdf/2501.00001.pdf",
    links_abs := "https://arxiv.org/abs/2501.00001",
    links_html := "https://ar5iv.org/html/2501.00001", extra := [] }

/-- A stored row for the same key that has accumulated workflow state and a
user note in `extra`. -/
def notedRow : Row :=
  { insertRow samplePayload with
    extra := some [("note", "important")], tags := some [("list", "gold")],
    signals := some [("bm25", "7")], state := "shortlist" }

/-- C4: upserting an identical record list twice leaves the store exactly as
after one call (and the store stays duplicate-free), for every store with
unambiguous keys and every record list. -/
theorem upsert_papers_idempotent (s : List Row) (l : List Payload) (s1 : List Row)
    (h : NodupKeys s) (h1 : upsert_papers s l = .ok s1) :
    upsert_papers s1 l = .ok s1 ∧ NodupKeys s1 := by
  obtain ⟨ha, hb⟩ := upsert_papers_eq_runT s l h
  rw [ha] at h1
  cases h1
  obtain ⟨hc, hd⟩ := upsert_papers_eq_runT (runT s l) l hb
  exact ⟨by rw [hc, runT_idem], hb⟩

/-- Witness for C4: a one-row store upserted twice with the same payload. -/
theorem upsert_papers_idempotent_witness :
    upsert_papers [insertRow samplePayload] [samplePayload]
        = .ok [insertRow samplePayload] ∧
      NodupKeys [insertRow samplePayload] :=
  upsert_papers_idempotent [] [samplePayload] [insertRow samplePayload]
    (by simp [NodupKeys]) rfl

/-- C5: key uniqueness is invariant under `upsert_papers`, and a record whose
key is already stored replaces the row in place: the row count and the stored
key sequence are unchanged. -/
theorem upsert_papers_key_uniqueness :
    (∀ (s : List Row) (l : List Payload) (s1 : List Row),
        NodupKeys s → upsert_papers s l = .ok s1 → NodupKeys s1) ∧
    (∀ (s : List Row) (p : Payload) (s1 : List Row),
        NodupKeys s → pKey p ∈ s.map rKey → upsert_papers s [p] = .ok s1 →
          s1.length = s.length ∧ s1.map rKey = s.map rKey) := by
  constructor
  · intro s l s1 h h1
    obtain ⟨ha, hb⟩ := upsert_papers_eq_runT s l h
    rw [ha] at h1
    cases h1
    exact hb
  · intro s p s1 h hk h1
    obtain ⟨ha, _⟩ := upsert_papers_eq_runT s [p] h
    rw [ha] at h1
    cases h1
    have hany : s.any (keyMatch p) = true := (any_keyMatch_iff p s).mpr hk
    have hm : runT s [p] = s.map (step1 p) := by
      rw [runT_cons, runT_nil]
      unfold upsertT
      rw [if_pos hany]
    rw [hm]
    refine ⟨by simp, ?_⟩
    rw [List.map_map]
    exact List.map_congr_left (fun r _ => rKey_step1 p r)

/-- Witness for C5: both conjuncts applied to a concrete one-row store. -/
theorem upsert_papers_key_uniqueness_witness :
    NodupKeys [insertRow samplePayload] ∧
      ([applyPayload notedRow samplePayload].length = [notedRow].length ∧
        [applyPayload notedRow samplePayload].map rKey = [notedRow].map rKey) :=
  ⟨upsert_papers_key_uniqueness.1 [] [samplePayload] [insertRow samplePayload]
      (by simp [NodupKeys]) rfl,
    upsert_papers_key_uniqueness.2 [notedRow] samplePayload
      [applyPayload notedRow samplePayload] (by simp [NodupKeys])
      (by simp [notedRow, insertRow, rKey, pKey]) rfl⟩

/-- C3 counterexample: re-ingestion of an existing `(external_id, version)` key
overwrites `extra` with the payload's empty dict, so a user note stored in
`extra` does NOT retain its prior value. -/
theorem upsert_clobbers_extra_counterexample :
    notedRow.extra = some [("note", "important")] ∧
      upsert_papers [notedRow] [samplePayload]
        = .ok [applyPayload notedRow samplePayload] ∧
      (applyPayload notedRow samplePayload).extra = some [] ∧
      (applyPayload notedRow samplePayload).extra ≠ notedRow.extra := by
  exact ⟨rfl, rfl, rfl, by decide⟩

/-- C3 (amended): re-upserting an existing key overwrites every key of the
payload dict in place — the ingestion fields and `extra` (which the
normalizers always emit as `{}`) — while the store-side columns `state`,
`tags` and `signals` retain their prior values; no new row is created. -/
theorem upsert_updates_ingestion_fields (s : List Row) (p : Payload) (r : Row)
    (h : NodupKeys s) (hr : r ∈ s) (hk : rKey r = pKey p) :
    ∃ s1, upsert_papers s [p] = .ok s1 ∧ s1.length = s.length ∧
      applyPayload r p ∈ s1 ∧
      (applyPayload r p).state = r.state ∧
      (applyPayload r p).tags = r.tags ∧
      (applyPayload r p).signals = r.signals ∧
      (applyPayload r p).title = p.title ∧
      (applyPayload r p).abstract = p.abstract ∧
      (applyPayload r p).authors = p.authors ∧
      (applyPayload r p).categories = p.categories ∧
      (applyPayload r p).primary_category = p.primary_category ∧
      (applyPayload r p).submitted_at = p.submitted_at ∧
      (applyPayload r p).updated_at = p.updated_at ∧
      (applyPayload r p).links_pdf = some p.links_pdf ∧
      (applyPayload r p).links_abs = some p.links_abs ∧
      (applyPayload r p).links_html = some p.links_html ∧
      (applyPayload r p).extra = some p.extra := by
  have hany : s.any (keyMatch p) = true :=
    List.any_eq_true.mpr ⟨r, hr, (keyMatch_iff p r).mpr hk⟩
  obtain ⟨ha, _⟩ := upsert_papers_eq_runT s [p] h
  have hm : runT s [p] = s.map (step1 p) := by
    rw [runT_cons, runT_nil]
    unfold upsertT
    rw [if_pos hany]
  refine ⟨runT s [p], ha, by rw [hm]; simp, ?_,
    rfl, rfl, rfl, rfl, rfl, rfl, rfl, rfl, rfl, rfl, rfl, rfl, rfl, rfl⟩
  rw [hm, ← step1_of_match p r ((keyMatch_iff p r).mpr hk)]
  exact List.mem_map_of_mem _ hr

/-- Witness for amended C3: the noted row updated by a payload with the same
key. -/
theorem upsert_updates_ingestion_fields_witness :
    ∃ s1, upsert_papers [notedRow] [samplePayload] = .ok s1 ∧
      s1.length = [notedRow].length ∧
      applyPayload notedRow samplePayload ∈ s1 ∧
      (applyPayload notedRow samplePayload).state = notedRow.state ∧
      (applyPayload notedRow samplePayload).tags = notedRow.tags ∧
      (applyPayload notedRow samplePayload).signals = notedRow.signals ∧
      (applyPayload notedRow samplePayload).title = samplePayload.title ∧
      (applyPayload notedRow samplePayload).abstract = samplePayload.abstract ∧
      (applyPayload notedRow samplePayload).authors = samplePayload.authors ∧
      (applyPayload notedRow samplePayload).categories = samplePayload.categories ∧
      (applyPayload notedRow samplePayload).primary_category
        = samplePayload.primary_category ∧
      (applyPayload notedRow samplePayload).submitted_at = samplePayload.submitted_at ∧
      (applyPayload notedRow samplePayload).updated_at = samplePayload.updated_at ∧
      (applyPayload notedRow samplePayload).links_pdf = some samplePayload.links_pdf ∧
      (applyPayload notedRow samplePayload).links_abs = some samplePayload.links_abs ∧
      (applyPayload notedRow samplePayload).links_html = some samplePayload.links_html ∧
      (applyPayload notedRow samplePayload).extra = some samplePayload.extra :=
  upsert_updates_ingestion_fields [notedRow] samplePayload notedRow
    (by simp [NodupKeys]) (by simp) (by simp [notedRow, insertRow, rKey, pKey])

/-!
Dialect B: `_parse_oai_record` (`server/services/oai.py`).  The XML record is
modelled post-parse: each structure field holds the text of the (last)
occurrence of the corresponding element (`none` = element absent), exactly the
data the Python loop extracts; attributes are modelled likewise.
-/

/-- Python `str.strip()` on the characters of a string. -/
def pyStrip (s : String) : String :=
  String.mk (((s.data.dropWhile Char.isWhitespace).reverse.dropWhile
    Char.isWhitespace).reverse)

/-- `identifier.split(':')[-1]`: the suffix after the last colon (the whole
string when there is no colon). -/
def lastColonSuffix (s : String) : String :=
  String.mk ((s.data.reverse.takeWhile (fun c => c != ':')).reverse)

/-- Python `str.split()` (split on whitespace runs, no empty tokens), with an
accumulator for the word being read (kept reversed). -/
def splitWhiteAux : List Char → List Char → List String
  | [], acc => if acc = [] then [] else [String.mk acc.reverse]
  | c :: rest, acc =>
    if c.isWhitespace then
      (if acc = [] then [] else [String.mk acc.reverse]) ++ splitWhiteAux rest []
    else splitWhiteAux rest (c :: acc)

/-- Python `str.split()` (split on whitespace runs, no empty tokens). -/
def splitWhiteChars (l : List Char) : List String := splitWhiteAux l []

/-- Digits to a number, most significant first. -/
def digitsToNat (l : List Char) : Nat := l.foldl (fun n c => n * 10 + digitVal c) 0

/-- The version-label parse of `_parse_oai_record`: a label `vN` yields `N`
(Python `int`, modelled on plain decimal digits), anything else yields 0. -/
def parseVLabel (lbl : String) : Nat :=
  match lbl.data with
  | 'v' :: rest => if rest ≠ [] ∧ rest.all Char.isDigit then digitsToNat rest else 0
  | _ => 0

/-- One `<author>` element: texts of its `keyname`, `forenames` and `name`
children. -/
structure OAIAuthor where
  keyname : Option String
  forenames : Option String
  name : Option String
deriving DecidableEq, Repr

/-- One `<version>` element: its `version` attribute (`''` when missing, as
`attrib.get('version', '')`) and the text of its `date` child. -/
structure OAIVersion where
  label : String
  date : Option String
deriving DecidableEq, Repr

/-- The `<header>` element: `status` attribute and child texts. -/
structure OAIHeader where
  status : Option String
  identifier : Option String
  datestamp : Option String
deriving DecidableEq, Repr

/-- The arXiv element under `<metadata>`. -/
structure ArxMeta where
  title : Option String
  abstract : Option String
  authors : List OAIAuthor
  categoriesText : Option String
  created : Option String
  versions : List OAIVersion
deriving DecidableEq, Repr

/-- A `<record>`: `metadata = none` also covers a metadata block without an
inner element (both make the Python code return `None`). -/
structure OAIRecord where
  header : Option OAIHeader
  metadata : Option ArxMeta
deriving DecidableEq, Repr

/-- Python `a or b` for a string `a` and optional fallback `b`. -/
def strOrOpt (a : String) (b : Option String) : Option String :=
  if a = "" then b else some a

/-- Author display name: prefer the full `name`, else `forenames + ' ' +
keyname` stripped; skip empty results. -/
def authorName (a : OAIAuthor) : Option String :=
  let full := pyStrip (a.name.getD "")
  if full ≠ "" then some full
  else
    let nm := pyStrip (pyStrip (a.forenames.getD "") ++ " " ++ pyStrip (a.keyname.getD ""))
    if nm ≠ "" then some nm else none

/-- Stable insertion of a version entry into a list sorted by version number
(the new entry goes after existing entries with an equal or smaller number). -/
def insVer (e : Nat × String) : List (Nat × String) → List (Nat × String)
  | [] => [e]
  | x :: t => if x.1 ≤ e.1 then x :: insVer e t else e :: x :: t

/-- Python's stable `sorted(versions, key=lambda x: x[0])` (stable sorts of a
list agree elementwise, so insertion sort is the same function). -/
def stableSortVers (l : List (Nat × String)) : List (Nat × String) :=
  l.foldl (fun acc e => insVer e acc) []

/-- The `(vnum, date)` pair extracted from one `<version>` element. -/
def oaiVersionKey (v : OAIVersion) : Nat × String :=
  (parseVLabel v.label, pyStrip (v.date.getD ""))

/-- `max([v for v, _ in versions], default=1)`. -/
def oaiVersionNum (versions : List (Nat × String)) : Nat :=
  match versions with
  | [] => 1
  | _ => (versions.map Prod.fst).foldl Nat.max 0

/-- `vsorted[0][1] or created_ts` with the empty-versions fallback. -/
def oaiSubmittedAt (versions : List (Nat × String)) (created : Option String) :
    Option String :=
  match (stableSortVers versions).head? with
  | none => created
  | some e => strOrOpt e.2 created

/-- `vsorted[-1][1] or datestamp` with the empty-versions fallback. -/
def oaiUpdatedAt (versions : List (Nat × String)) (datestamp : Option String) :
    Option String :=
  match (stableSortVers versions).getLast? with
  | none => datestamp
  | some e => strOrOpt e.2 datestamp

/-- The metadata stage of `_parse_oai_record`: build the payload from the
arXiv element, the already-extracted external id and the header datestamp. -/
def parseOAIMeta (arxiv_id : String) (datestamp : Option String) (md : ArxMeta) : Payload :=
  let cats := match md.categoriesText with
    | none => []
    | some t => splitWhiteChars (pyStrip t).data
  let versions := md.versions.map oaiVersionKey
  let version := oaiVersionNum versions
  let submitted_at := oaiSubmittedAt versions (md.created.map pyStrip)
  let updated_at := oaiUpdatedAt versions (datestamp.map pyStrip)
  { arxiv_id := arxiv_id, version := version,
    title := pyStrip (md.title.getD ""),
    abstract := pyStrip (md.abstract.getD ""),
    authors := String.intercalate ", " (md.authors.filterMap authorName),
    categories := String.intercalate "," cats,
    primary_category := cats.headD "unknown",
    submitted_at := submitted_at, updated_at := updated_at,
    links_pdf := "https://arxiv.org/pdf/" ++ arxiv_id ++ ".pdf",
    links_abs := "https://arxiv.org/abs/" ++ arxiv_id,
    links_html := "https://ar5iv.org/html/" ++ arxiv_id,
    extra := [] }

/-- The identifier/metadata stage of `_parse_oai_record`: reject a missing or
empty identifier, take the suffix after the last colon, require metadata. -/
def parseOAIIdStage : Option String → Option String → Option ArxMeta → Option Payload
  | none, _, _ => none
  | some idRaw, ds, md? =>
    if pyStrip idRaw = "" then none
    else
      match md? with
      | none => none
      | some md => some (parseOAIMeta (lastColonSuffix (pyStrip idRaw)) ds md)

/-- Embeds `_parse_oai_record` (`server/services/oai.py`): drop records with
no header or deletion status, then normalize. -/
def parse_oai_record (rec : OAIRecord) : Option Payload :=
  match rec.header with
  | none => none
  | some hdr =>
    if hdr.status = some "deleted" then none
    else parseOAIIdStage hdr.identifier hdr.datestamp rec.metadata

/-- Sortedness by version number. -/
def SortedV (l : List (Nat × String)) : Prop := List.Pairwise (fun a b => a.1 ≤ b.1) l

theorem mem_insVer (e x : Nat × String) (l : List (Nat × String)) :
    x ∈ insVer e l ↔ x = e ∨ x ∈ l := by
  induction l with
  | nil => simp [insVer]
  | cons a t ih =>
    unfold insVer
    split
    · rw [List.mem_cons, ih, List.mem_cons]
      tauto
    · simp only [List.mem_cons]

theorem sortedV_insVer (e : Nat × String) (l : List (Nat × String)) (h : SortedV l) :
    SortedV (insVer e l) := by
  induction l with
  | nil => simp [insVer, SortedV]
  | cons a t ih =>
    unfold insVer
    rcases List.pairwise_cons.mp h with ⟨ha, ht⟩
    split
    · next hle =>
      refine List.pairwise_cons.mpr ⟨?_, ih ht⟩
      intro x hx
      rcases (mem_insVer e x t).mp hx with rfl | hx'
      · exact hle
      · exact ha x hx'
    · next hgt =>
      refine List.pairwise_cons.mpr ⟨?_, h⟩
      intro x hx
      rcases List.mem_cons.mp hx with rfl | hx'
      · omega
      · exact le_trans (by omega) (ha x hx')

theorem mem_stableSortVers_aux (l acc : List (Nat × String)) (x : Nat × String) :
    x ∈ l.foldl (fun acc e => insVer e acc) acc ↔ x ∈ l ∨ x ∈ acc := by
  induction l generalizing acc with
  | nil => simp
  | cons a t ih =>
    rw [List.foldl_cons, ih, mem_insVer]
    simp
    tauto

theorem mem_stableSortVers (l : List (Nat × String)) (x : Nat × String) :
    x ∈ stableSortVers l ↔ x ∈ l := by
  unfold stableSortVers
  rw [mem_stableSortVers_aux]
  simp

theorem sortedV_stableSortVers (l : List (Nat × String)) : SortedV (stableSortVers l) := by
  unfold stableSortVers
  have : ∀ acc, SortedV acc → SortedV (l.foldl (fun acc e => insVer e acc) acc) := by
    induction l with
    | nil => intro acc h; exact h
    | cons a t ih => intro acc h; exact ih _ (sortedV_insVer a acc h)
  exact this [] (by simp [SortedV])

theorem length_insVer (e : Nat × String) (l : List (Nat × String)) :
    (insVer e l).length = l.length + 1 := by
  induction l with
  | nil => rfl
  | cons a t ih =>
    unfold insVer
    split <;> simp [ih]

theorem stableSortVers_ne_nil (l : List (Nat × String)) (h : l ≠ []) :
    stableSortVers l ≠ [] := by
  intro hc
  cases l with
  | nil => exact h rfl
  | cons a t =>
    have := (mem_stableSortVers (a :: t) a).mpr (by simp)
    rw [hc] at this
    cases this

theorem sortedV_head_le (l : List (Nat × String)) (h : SortedV l) (a : Nat × String)
    (x : Nat × String) (hhead : l.head? = some a) (hx : x ∈ l) : a.1 ≤ x.1 := by
  cases l with
  | nil => cases hhead
  | cons b t =>
    cases hhead
    rcases List.mem_cons.mp hx with rfl | hx'
    · exact le_refl _
    · exact (List.pairwise_cons.mp h).1 x hx'

theorem sortedV_le_getLast (l : List (Nat × String)) (h : SortedV l) (a : Nat × String)
    (x : Nat × String) (hlast : l.getLast? = some a) (hx : x ∈ l) : x.1 ≤ a.1 := by
  induction l with
  | nil => cases hlast
  | cons b t ih =>
    cases t with
    | nil =>
      rw [List.getLast?_singleton] at hlast
      injection hlast with hba
      subst hba
      have hxb := List.mem_singleton.mp hx
      subst hxb
      exact le_refl _
    | cons c t2 =>
      rw [List.getLast?_cons_cons] at hlast
      rcases List.mem_cons.mp hx with rfl | hx'
      · have hmem : a ∈ c :: t2 := by
          rcases List.mem_getLast?_eq_getLast (Option.mem_def.mpr hlast) with ⟨hne2, heq⟩
          rw [heq]
          exact List.getLast_mem hne2
        exact (List.pairwise_cons.mp h).1 a hmem
      · exact ih (List.pairwise_cons.mp h).2 hlast hx'

theorem stableSortVers_head (l : List (Nat × String)) (e : Nat × String)
    (he : e ∈ l) (h : ∀ x ∈ l, x = e ∨ e.1 < x.1) :
    (stableSortVers l).head? = some e := by
  have hne := stableSortVers_ne_nil l (by intro hc; rw [hc] at he; cases he)
  cases hh : (stableSortVers l).head? with
  | none => exact absurd (List.head?_eq_none_iff.mp hh) hne
  | some a =>
    have ha : a ∈ l := (mem_stableSortVers l a).mp (List.mem_of_mem_head? hh)
    have h1 : a.1 ≤ e.1 :=
      sortedV_head_le _ (sortedV_stableSortVers l) a e hh ((mem_stableSortVers l e).mpr he)
    rcases h a ha with rfl | h2
    · rfl
    · omega

theorem stableSortVers_getLast (l : List (Nat × String)) (e : Nat × String)
    (he : e ∈ l) (h : ∀ x ∈ l, x = e ∨ x.1 < e.1) :
    (stableSortVers l).getLast? = some e := by
  have hne := stableSortVers_ne_nil l (by intro hc; rw [hc] at he; cases he)
  cases hh : (stableSortVers l).getLast? with
  | none => exact absurd (List.getLast?_eq_none_iff.mp hh) hne
  | some a =>
    have ha : a ∈ l := (mem_stableSortVers l a).mp (by
      rcases List.mem_getLast?_eq_getLast (Option.mem_def.mpr hh) with ⟨hne2, heq⟩
      rw [heq]
      exact List.getLast_mem hne2)
    have h1 : e.1 ≤ a.1 :=
      sortedV_le_getLast _ (sortedV_stableSortVers l) a e hh ((mem_stableSortVers l e).mpr he)
    rcases h a ha with rfl | h2
    · rfl
    · omega

theorem le_foldl_max (l : List Nat) (a : Nat) :
    a ≤ l.foldl Nat.max a ∧ ∀ x ∈ l, x ≤ l.foldl Nat.max a := by
  induction l generalizing a with
  | nil => simp
  | cons b t ih =>
    obtain ⟨h1, h2⟩ := ih (Nat.max a b)
    refine ⟨le_trans (Nat.le_max_left a b) h1, ?_⟩
    intro x hx
    rcases List.mem_cons.mp hx with rfl | hx'
    · exact le_trans (Nat.le_max_right a x) h1
    · exact h2 x hx'

theorem foldl_max_le (l : List Nat) (a c : Nat) (ha : a ≤ c) (h : ∀ x ∈ l, x ≤ c) :
    l.foldl Nat.max a ≤ c := by
  induction l generalizing a with
  | nil => exact ha
  | cons b t ih =>
    exact ih (Nat.max a b) (Nat.max_le.mpr ⟨ha, h b (by simp)⟩)
      (fun x hx => h x (by simp [hx]))

theorem foldl_max_eq (nums : List Nat) (m : Nat) (hm : m ∈ nums)
    (hall : ∀ x ∈ nums, x ≤ m) : nums.foldl Nat.max 0 = m :=
  le_antisymm (foldl_max_le nums 0 m (Nat.zero_le m) hall) ((le_foldl_max nums 0).2 m hm)

theorem takeWhile_append_stop (p : Char → Bool) (l1 l2 : List Char) (x : Char)
    (h1 : ∀ c ∈ l1, p c = true) (hx : p x = false) :
    (l1 ++ x :: l2).takeWhile p = l1 := by
  induction l1 with
  | nil => simp [List.takeWhile_cons, hx]
  | cons a t ih =>
    simp only [List.cons_append, List.takeWhile_cons, h1 a (by simp), if_true]
    rw [ih (fun c hc => h1 c (by simp [hc]))]

theorem lastColonSuffix_spec (pre suf : List Char) (h : ∀ c ∈ suf, (c != ':') = true) :
    lastColonSuffix (String.mk (pre ++ ':' :: suf)) = String.mk suf := by
  unfold lastColonSuffix
  show String.mk (((pre ++ ':' :: suf).reverse.takeWhile (fun c => c != ':')).reverse)
    = String.mk suf
  rw [List.reverse_append, List.reverse_cons]
  rw [List.append_assoc, List.singleton_append]
  rw [takeWhile_append_stop _ suf.reverse (pre.reverse) ':'
    (fun c hc => h c (List.mem_reverse.mp hc)) (by simp)]
  rw [List.reverse_reverse]

theorem parseOAIMeta_fields (aid : String) (ds : Option String) (md : ArxMeta) :
    (parseOAIMeta aid ds md).arxiv_id = aid ∧
    (parseOAIMeta aid ds md).version = oaiVersionNum (md.versions.map oaiVersionKey) ∧
    (parseOAIMeta aid ds md).submitted_at
      = oaiSubmittedAt (md.versions.map oaiVersionKey) (md.created.map pyStrip) ∧
    (parseOAIMeta aid ds md).updated_at
      = oaiUpdatedAt (md.versions.map oaiVersionKey) (ds.map pyStrip) :=
  ⟨rfl, rfl, rfl, rfl⟩

theorem oaiVersionNum_unique_max (vs : List OAIVersion) (emax : OAIVersion)
    (he : emax ∈ vs)
    (h : ∀ e ∈ vs, e ≠ emax → parseVLabel e.label < parseVLabel emax.label) :
    oaiVersionNum (vs.map oaiVersionKey) = parseVLabel emax.label := by
  cases vs with
  | nil => cases he
  | cons v0 vt =>
    show (((v0 :: vt).map oaiVersionKey).map Prod.fst).foldl Nat.max 0 = _
    apply foldl_max_eq
    · rw [List.map_map]
      exact List.mem_map_of_mem _ he
    · intro x hx
      rw [List.map_map] at hx
      rcases List.mem_map.mp hx with ⟨e, he2, rfl⟩
      by_cases hee : e = emax
      · subst hee
        exact le_refl _
      · exact le_of_lt (h e he2 hee)

theorem oaiSubmittedAt_unique_min (vs : List OAIVersion) (emin : OAIVersion)
    (he : emin ∈ vs)
    (h : ∀ e ∈ vs, e ≠ emin → parseVLabel emin.label < parseVLabel e.label)
    (created : Option String) :
    oaiSubmittedAt (vs.map oaiVersionKey) created
      = strOrOpt (pyStrip (emin.date.getD "")) created := by
  have hhead : (stableSortVers (vs.map oaiVersionKey)).head? = some (oaiVersionKey emin) := by
    apply stableSortVers_head
    · exact List.mem_map_of_mem _ he
    · intro x hx
      rcases List.mem_map.mp hx with ⟨e, he2, rfl⟩
      by_cases hee : e = emin
      · subst hee
        exact Or.inl rfl
      · exact Or.inr (h e he2 hee)
  unfold oaiSubmittedAt
  rw [hhead]
  rfl

theorem oaiUpdatedAt_unique_max (vs : List OAIVersion) (emax : OAIVersion)
    (he : emax ∈ vs)
    (h : ∀ e ∈ vs, e ≠ emax → parseVLabel e.label < parseVLabel emax.label)
    (datestamp : Option String) :
    oaiUpdatedAt (vs.map oaiVersionKey) datestamp
      = strOrOpt (pyStrip (emax.date.getD "")) datestamp := by
  have hlast : (stableSortVers (vs.map oaiVersionKey)).getLast? = some (oaiVersionKey emax) := by
    apply stableSortVers_getLast
    · exact List.mem_map_of_mem _ he
    · intro x hx
      rcases List.mem_map.mp hx with ⟨e, he2, rfl⟩
      by_cases hee : e = emax
      · subst hee
        exact Or.inl rfl
      · exact Or.inr (h e he2 hee)
  unfold oaiUpdatedAt
  rw [hlast]
  rfl

/-- C8: Dialect B normalization: a record whose header carries deletion status
yields null; otherwise the external id is the suffix after the last `:` of the
identifier, the version is the maximum version number in the version-history
list (1 when the list is empty), `submitted_at` is the date of the earliest
version entry with the record creation date as fallback, and `updated_at` is
the date of the latest version entry with the record datestamp as fallback. -/
theorem parse_oai_record_spec :
    (∀ (rec : OAIRecord) (hdr : OAIHeader),
        rec.header = some hdr → hdr.status = some "deleted" →
          parse_oai_record rec = none) ∧
    (∀ (hdr : OAIHeader) (md : ArxMeta) (out : Payload),
        parse_oai_record ⟨some hdr, some md⟩ = some out →
        (∀ pre suf, pyStrip (hdr.identifier.getD "") = String.mk (pre ++ ':' :: suf) →
            (∀ c ∈ suf, (c != ':') = true) → out.arxiv_id = String.mk suf) ∧
        (md.versions = [] →
            out.version = 1 ∧ out.submitted_at = md.created.map pyStrip ∧
              out.updated_at = hdr.datestamp.map pyStrip) ∧
        (∀ emin emax : OAIVersion, emin ∈ md.versions → emax ∈ md.versions →
            (∀ e ∈ md.versions, e ≠ emin →
                parseVLabel emin.label < parseVLabel e.label) →
            (∀ e ∈ md.versions, e ≠ emax →
                parseVLabel e.label < parseVLabel emax.label) →
            out.version = parseVLabel emax.label ∧
            out.submitted_at
              = strOrOpt (pyStrip (emin.date.getD "")) (md.created.map pyStrip) ∧
            out.updated_at
              = strOrOpt (pyStrip (emax.date.getD "")) (hdr.datestamp.map pyStrip))) := by
  constructor
  · intro rec hdr hh hs
    obtain ⟨rh, rm⟩ := rec
    have hrh : rh = some hdr := hh
    subst hrh
    show (if hdr.status = some "deleted" then none
        else parseOAIIdStage hdr.identifier hdr.datestamp rm) = none
    rw [if_pos hs]
  · intro hdr md out hp
    have hp1 : (if hdr.status = some "deleted" then none
        else parseOAIIdStage hdr.identifier hdr.datestamp (some md)) = some out := hp
    by_cases hdel : hdr.status = some "deleted"
    · rw [if_pos hdel] at hp1
      cases hp1
    rw [if_neg hdel] at hp1
    cases hid : hdr.identifier with
    | none =>
      rw [hid] at hp1
      exact absurd hp1 (by simp [parseOAIIdStage])
    | some idRaw =>
      rw [hid] at hp1
      by_cases hide : pyStrip idRaw = ""
      · rw [show parseOAIIdStage (some idRaw) hdr.datestamp (some md) = none from by
          simp [parseOAIIdStage, hide]] at hp1
        cases hp1
      have hp2 : some (parseOAIMeta (lastColonSuffix (pyStrip idRaw)) hdr.datestamp md)
          = some out := by
        rw [← hp1]
        simp [parseOAIIdStage, hide]
      have hout : out = parseOAIMeta (lastColonSuffix (pyStrip idRaw)) hdr.datestamp md := by
        injection hp2 with h2
        exact h2.symm
      subst hout
      refine ⟨?_, ?_, ?_⟩
      · intro pre suf hps hcol
        have hps2 : pyStrip idRaw = String.mk (pre ++ ':' :: suf) := by
          simpa using hps
        rw [(parseOAIMeta_fields _ _ _).1, hps2, lastColonSuffix_spec pre suf hcol]
      · intro hv
        refine ⟨?_, ?_, ?_⟩
        · rw [(parseOAIMeta_fields _ _ _).2.1, hv]
          rfl
        · rw [(parseOAIMeta_fields _ _ _).2.2.1, hv]
          rfl
        · rw [(parseOAIMeta_fields _ _ _).2.2.2, hv]
          rfl
      · intro emin emax hemin hemax hminU hmaxU
        refine ⟨?_, ?_, ?_⟩
        · rw [(parseOAIMeta_fields _ _ _).2.1]
          exact oaiVersionNum_unique_max md.versions emax hemax hmaxU
        · rw [(parseOAIMeta_fields _ _ _).2.2.1]
          exact oaiSubmittedAt_unique_min md.versions emin hemin hminU _
        · rw [(parseOAIMeta_fields _ _ _).2.2.2]
          exact oaiUpdatedAt_unique_max md.versions emax hemax hmaxU _

/-- A non-deleted OAI header for the witness. -/
def sampleOAIHeader : OAIHeader :=
  { status := none, identifier := some "oai:arXiv.org:2501.12345",
    datestamp := some "2025-01-20" }

/-- A deleted-status OAI header for the witness. -/
def deletedOAIHeader : OAIHeader :=
  { status := some "deleted", identifier := some "oai:arXiv.org:2501.99999",
    datestamp := none }

/-- Metadata with a two-entry version history for the witness. -/
def sampleArxMeta : ArxMeta :=
  { title := some "A Title", abstract := some "An abstract.",
    authors := [{ keyname := some "Doe", forenames := some "Jane", name := none }],
    categoriesText := some "cs.CV cs.LG", created := some "2025-01-02",
    versions := [⟨"v1", some "2025-01-02"⟩, ⟨"v2", some "2025-01-18"⟩] }

/-- The payload the sample record normalizes to. -/
def sampleOAIPayload : Payload :=
  parseOAIMeta (lastColonSuffix (pyStrip "oai:arXiv.org:2501.12345"))
    (some "2025-01-20") sampleArxMeta

/-- Witness for C8: a deleted record is dropped; the sample record gets the
maximal version and the colon-suffix external id. -/
theorem parse_oai_record_spec_witness :
    parse_oai_record ⟨some deletedOAIHeader, none⟩ = none ∧
    sampleOAIPayload.version = parseVLabel "v2" ∧
    sampleOAIPayload.arxiv_id = String.mk "2501.12345".data := by
  refine ⟨parse_oai_record_spec.1 ⟨some deletedOAIHeader, none⟩ deletedOAIHeader rfl rfl,
    ?_, ?_⟩
  · exact ((parse_oai_record_spec.2 sampleOAIHeader sampleArxMeta sampleOAIPayload
      rfl).2.2 ⟨"v1", some "2025-01-02"⟩ ⟨"v2", some "2025-01-18"⟩
      (by simp [sampleArxMeta]) (by simp [sampleArxMeta]) (by decide) (by decide)).1
  · exact (parse_oai_record_spec.2 sampleOAIHeader sampleArxMeta sampleOAIPayload
      rfl).1 "oai:arXiv.org".data "2501.12345".data (by decide) (by decide)

/-!
Pagination: `_oai_list_records_once` / `harvest_oai_category`
(`server/services/oai.py`), over a mocked response sequence: the k-th request
is answered with the k-th page.  The embedding additionally records the
parameter list of every request issued, so the follow-up-request shape is
provable.
-/

/-- One mocked OAI response page: its `<record>` chunks (already structured)
and the content of its `resumptionToken` element (`none` = element absent). -/
structure OAIPage where
  records : List OAIRecord
  rawToken : Option String
deriving Repr

/-- Token normalization of `_oai_list_records_once`: strip; an absent element
or empty-string token means "no more pages". -/
def normToken (t : Option String) : Option String :=
  match t with
  | none => none
  | some s => if pyStrip s = "" then none else some (pyStrip s)

/-- The normalized records of one page (deleted/malformed records dropped). -/
def pageRows (pg : OAIPage) : List Payload :=
  pg.records.filterMap parse_oai_record

/-- `cat.replace(".", ":")` (single-character replacement). -/
def catOai (cat : String) : String :=
  String.mk (cat.data.map (fun c => if c = '.' then ':' else c))

/-- The first request's parameter list. -/
def initParams (cat since untilD : String) : List (String × String) :=
  [("verb", "ListRecords"), ("metadataPrefix", "arXiv"),
   ("set", "cs:" ++ catOai cat), ("from", since), ("until", untilD)]

/-- A follow-up request's parameter list: only the verb and the token. -/
def tokenParams (t : String) : List (String × String) :=
  [("verb", "ListRecords"), ("resumptionToken", t)]

/-- The `while True` pagination loop of `harvest_oai_category`, returning the
requests issued, the accumulated rows, and whether the loop terminated inside
the mocked page sequence. -/
def harvest_go : List OAIPage → List (String × String) →
    List (List (String × String)) × List Payload × Bool
  | [], params => ([params], [], false)
  | pg :: rest, params =>
    match normToken pg.rawToken with
    | none => ([params], pageRows pg, true)
    | some t =>
      let r := harvest_go rest (tokenParams t)
      (params :: r.1, pageRows pg ++ r.2.1, r.2.2)

/-- Embeds `harvest_oai_category` (`server/services/oai.py`) over a mocked
page sequence. -/
def harvest_oai_category (pages : List OAIPage) (cat since untilD : String) :
    List (List (String × String)) × List Payload × Bool :=
  harvest_go pages (initParams cat since untilD)

theorem harvest_go_spec (front : List OAIPage) (last : OAIPage)
    (params : List (String × String))
    (hfront : ∀ pg ∈ front, ∃ t, normToken pg.rawToken = some t)
    (hlast : normToken last.rawToken = none) :
    harvest_go (front ++ [last]) params
      = (params :: front.map (fun pg => tokenParams ((normToken pg.rawToken).getD "")),
         ((front ++ [last]).map pageRows).flatten, true) := by
  induction front generalizing params with
  | nil =>
    show harvest_go [last] params = _
    unfold harvest_go
    rw [hlast]
    simp
  | cons pg rest ih =>
    obtain ⟨t, ht⟩ := hfront pg (by simp)
    show harvest_go (pg :: (rest ++ [last])) params = _
    unfold harvest_go
    rw [ht]
    show (params :: (harvest_go (rest ++ [last]) (tokenParams t)).1,
        pageRows pg ++ (harvest_go (rest ++ [last]) (tokenParams t)).2.1,
        (harvest_go (rest ++ [last]) (tokenParams t)).2.2) = _
    rw [ih (tokenParams t) (fun q hq => hfront q (by simp [hq]))]
    simp [ht]

/-- C6: given N mocked pages whose first N−1 responses carry a non-empty
resumption token and whose last carries an empty or absent one, the harvester
issues exactly N requests — the first with the full parameter set, each
follow-up with only `verb=ListRecords` and the previous page's token — and
returns the page-order concatenation of all pages' normalized records,
terminating inside the sequence. -/
theorem harvest_oai_category_spec (front : List OAIPage) (last : OAIPage)
    (cat since untilD : String)
    (hfront : ∀ pg ∈ front, ∃ t, normToken pg.rawToken = some t)
    (hlast : normToken last.rawToken = none) :
    (harvest_oai_category (front ++ [last]) cat since untilD).1.length
        = (front ++ [last]).length ∧
    (harvest_oai_category (front ++ [last]) cat since untilD).1
        = initParams cat since untilD
            :: front.map (fun pg => tokenParams ((normToken pg.rawToken).getD "")) ∧
    (harvest_oai_category (front ++ [last]) cat since untilD).2.1
        = ((front ++ [last]).map pageRows).flatten ∧
    (harvest_oai_category (front ++ [last]) cat since untilD).2.2 = true := by
  unfold harvest_oai_category
  rw [harvest_go_spec front last _ hfront hlast]
  refine ⟨?_, rfl, rfl, rfl⟩
  simp

/-- Witness for C6: a two-page sequence, the first page carrying token "tok1",
the second an empty-string token. -/
theorem harvest_oai_category_spec_witness :
    (harvest_oai_category
        [⟨[⟨some sampleOAIHeader, some sampleArxMeta⟩], some "tok1"⟩, ⟨[], some ""⟩]
        "cs.CV" "2025-01-01" "2025-01-20").1.length = 2 ∧
    (harvest_oai_category
        [⟨[⟨some sampleOAIHeader, some sampleArxMeta⟩], some "tok1"⟩, ⟨[], some ""⟩]
        "cs.CV" "2025-01-01" "2025-01-20").1
      = initParams "cs.CV" "2025-01-01" "2025-01-20" :: [tokenParams "tok1"] ∧
    (harvest_oai_category
        [⟨[⟨some sampleOAIHeader, some sampleArxMeta⟩], some "tok1"⟩, ⟨[], some ""⟩]
        "cs.CV" "2025-01-01" "2025-01-20").2.1
      = ([pageRows ⟨[⟨some sampleOAIHeader, some sampleArxMeta⟩], some "tok1"⟩,
          pageRows ⟨[], some ""⟩]).flatten ∧
    (harvest_oai_category
        [⟨[⟨some sampleOAIHeader, some sampleArxMeta⟩], some "tok1"⟩, ⟨[], some ""⟩]
        "cs.CV" "2025-01-01" "2025-01-20").2.2 = true := by
  have h := harvest_oai_category_spec
    [⟨[⟨some sampleOAIHeader, some sampleArxMeta⟩], some "tok1"⟩] ⟨[], some ""⟩
    "cs.CV" "2025-01-01" "2025-01-20"
    (by intro pg hpg; rw [List.mem_singleton] at hpg; subst hpg; exact ⟨"tok1", rfl⟩)
    rfl
  obtain ⟨h1, h2, h3, h4⟩ := h
  exact ⟨by simpa using h1, by simpa using h2, by simpa using h3, by simpa using h4⟩

/-!
Checkpoint store and orchestration: `get_oai_checkpoint`, `set_oai_checkpoint`
and `ingest_oai` (`server/services/oai.py`).  The database session is modelled
as the paper store plus the `ConfigKV` table; the network harvest is an oracle
`harvest cat since until` supplied by the caller; `now` is ambient, so the
date-only bounds (`until` = today, and the `now - days` fallback for `since`)
are caller-supplied strings.
-/

/-- The mutable system state: the `papers` table and the `config_kv` table. -/
structure SysState where
  papers : List Row
  kv : List (String × KVDict)
deriving Repr

/-- First-match lookup in the `config_kv` table. -/
def kvLookup : List (String × KVDict) → String → Option KVDict
  | [], _ => none
  | (k0, v0) :: t, k => if k0 = k then some v0 else kvLookup t k

/-- Python `dict.get` over the modelled JSON dict. -/
def dictGet : KVDict → String → Option String
  | [], _ => none
  | (k0, x) :: t, k => if k0 = k then some x else dictGet t k

/-- Update the first row with the given key, or insert a new row. -/
def kvSet : List (String × KVDict) → String → KVDict → List (String × KVDict)
  | [], k, v => [(k, v)]
  | (k0, v0) :: t, k, v => if k0 = k then (k, v) :: t else (k0, v0) :: kvSet t k v

/-- Embeds `get_oai_checkpoint`: read `oai_last_{cat}` and return its
`datestamp` field (`None` when the row or the dict is missing/empty). -/
def get_oai_checkpoint (st : SysState) (cat : String) : Option String :=
  match kvLookup st.kv ("oai_last_" ++ cat) with
  | none => none
  | some v => if v = [] then none else dictGet v "datestamp"

/-- Embeds `set_oai_checkpoint`: write `{"datestamp": d}` under
`oai_last_{cat}`. -/
def set_oai_checkpoint (st : SysState) (cat datestamp : String) : SysState :=
  { st with kv := kvSet st.kv ("oai_last_" ++ cat) [("datestamp", datestamp)] }

/-- Errors the orchestration can propagate. -/
inductive IngestErr where
  | transport (e : String)
  | store (e : String)
deriving DecidableEq, Repr

/-- The `since` resolution of `ingest_oai`: the stored watermark when
checkpointing is on and the watermark is present and non-empty (Python
falsiness), else the `now - days` fallback. -/
def resolveSince (st : SysState) (cat fallbackSince : String) (useCheckpoint : Bool) :
    String :=
  match (if useCheckpoint then get_oai_checkpoint st cat else none) with
  | none => fallbackSince
  | some s => if s = "" then fallbackSince else s

/-- One category pass of `ingest_oai`: resolve `since` from the checkpoint
(falling back for a missing or empty watermark), harvest, upsert the rows if
any, then advance the checkpoint to `until`.  A transport error propagates
before anything is written. -/
def ingest_oai_step (harvest : String → String → String → Except String (List Payload))
    (st : SysState) (cat fallbackSince untilD : String) (useCheckpoint : Bool) :
    Except IngestErr (SysState × Nat) :=
  match harvest cat (resolveSince st cat fallbackSince useCheckpoint) untilD with
  | .error e => .error (.transport e)
  | .ok rows =>
    match (if rows.isEmpty then Except.ok st.papers else upsert_papers st.papers rows) with
    | .error e => .error (.store e)
    | .ok papers1 =>
      .ok (set_oai_checkpoint { st with papers := papers1 } cat untilD, rows.length)

/-- Embeds `ingest_oai` (`server/services/oai.py`): sequential category passes;
`total_added` accumulates `len(rows)` (the Python code adds it only when rows
is non-empty, which is the same number); an exception stops the loop, leaving
the already-committed earlier passes in place. -/
def ingest_oai (harvest : String → String → String → Except String (List Payload))
    (st : SysState) (cats : List String) (fallbackSince untilD : String)
    (useCheckpoint : Bool) : SysState × Nat × Option IngestErr :=
  match cats with
  | [] => (st, 0, none)
  | cat :: rest =>
    match ingest_oai_step harvest st cat fallbackSince untilD useCheckpoint with
    | .error e => (st, 0, some e)
    | .ok (st1, n) =>
      let r := ingest_oai harvest st1 rest fallbackSince untilD useCheckpoint
      (r.1, n + r.2.1, r.2.2)

theorem kvLookup_kvSet (kv : List (String × KVDict)) (k : String) (v : KVDict) :
    kvLookup (kvSet kv k v) k = some v := by
  induction kv with
  | nil => simp [kvSet, kvLookup]
  | cons p t ih =>
    obtain ⟨k0, v0⟩ := p
    unfold kvSet
    by_cases hk : k0 = k
    · rw [if_pos hk]
      simp [kvLookup]
    · rw [if_neg hk]
      simp [kvLookup, hk, ih]

theorem get_set_checkpoint (st : SysState) (cat d : String) :
    get_oai_checkpoint (set_oai_checkpoint st cat d) cat = some d := by
  unfold get_oai_checkpoint set_oai_checkpoint
  rw [kvLookup_kvSet]
  simp [dictGet]

theorem set_checkpoint_papers (st : SysState) (cat d : String) :
    (set_oai_checkpoint st cat d).papers = st.papers := rfl

theorem ingest_oai_step_ok (harvest : String → String → String → Except String (List Payload))
    (st : SysState) (cat fallbackSince untilD : String) (useCp : Bool)
    (rows : List Payload) (hnd : NodupKeys st.papers)
    (hok : ∀ s u, harvest cat s u = Except.ok rows) :
    ∃ st1, ingest_oai_step harvest st cat fallbackSince untilD useCp
        = .ok (st1, rows.length) ∧
      get_oai_checkpoint st1 cat = some untilD ∧ NodupKeys st1.papers := by
  have hstep : ingest_oai_step harvest st cat fallbackSince untilD useCp
      = .ok (set_oai_checkpoint
          { papers := if rows.isEmpty then st.papers else runT st.papers rows,
            kv := st.kv } cat untilD, rows.length) := by
    unfold ingest_oai_step
    rw [hok]
    show (match (if rows.isEmpty then Except.ok st.papers
          else upsert_papers st.papers rows) with
        | Except.error e => Except.error (IngestErr.store e)
        | Except.ok papers1 =>
          Except.ok (set_oai_checkpoint { papers := papers1, kv := st.kv } cat untilD,
            rows.length)) = _
    cases hre : rows.isEmpty with
    | true => simp [hre]
    | false =>
      obtain ⟨hup, _⟩ := upsert_papers_eq_runT st.papers rows hnd
      simp [hre, hup]
  refine ⟨_, hstep, get_set_checkpoint _ cat untilD, ?_⟩
  rw [set_checkpoint_papers]
  show NodupKeys (if rows.isEmpty then st.papers else runT st.papers rows)
  cases hre : rows.isEmpty with
  | true => simpa [hre] using hnd
  | false =>
    rw [if_neg (by simp [hre])]
    exact (upsert_papers_eq_runT st.papers rows hnd).2

theorem ingest_oai_step_err (harvest : String → String → String → Except String (List Payload))
    (st : SysState) (cat fallbackSince untilD : String) (useCp : Bool)
    (e : String) (herr : ∀ s u, harvest cat s u = Except.error e) :
    ingest_oai_step harvest st cat fallbackSince untilD useCp
      = .error (.transport e) := by
  unfold ingest_oai_step
  rw [herr]

/-- C2: a category pass of `ingest_oai` sets that category's watermark to
`until` exactly when the harvest completes without transport error — including
with zero records — and a transport error propagates with the state (hence the
stored watermark) exactly as before the call; over two successive successful
passes the watermark is `until₁` then `until₂`. -/
theorem ingest_oai_checkpoint_spec :
    (∀ harvest (st : SysState) (cat fallbackSince untilD : String) (useCp : Bool)
        (rows : List Payload),
      NodupKeys st.papers →
      (∀ s u, harvest cat s u = Except.ok rows) →
      ∃ st1, ingest_oai harvest st [cat] fallbackSince untilD useCp
          = (st1, rows.length, none) ∧
        get_oai_checkpoint st1 cat = some untilD ∧ NodupKeys st1.papers) ∧
    (∀ harvest (st : SysState) (cat fallbackSince untilD : String) (useCp : Bool)
        (e : String),
      (∀ s u, harvest cat s u = Except.error e) →
      ingest_oai harvest st [cat] fallbackSince untilD useCp
        = (st, 0, some (IngestErr.transport e))) ∧
    (∀ h1 h2 (st : SysState) (cat fb1 fb2 u1 u2 : String) (ucp1 ucp2 : Bool)
        (rows1 rows2 : List Payload),
      NodupKeys st.papers →
      (∀ s u, h1 cat s u = Except.ok rows1) →
      (∀ s u, h2 cat s u = Except.ok rows2) →
      ∃ st1 st2,
        ingest_oai h1 st [cat] fb1 u1 ucp1 = (st1, rows1.length, none) ∧
        ingest_oai h2 st1 [cat] fb2 u2 ucp2 = (st2, rows2.length, none) ∧
        get_oai_checkpoint st1 cat = some u1 ∧
        get_oai_checkpoint st2 cat = some u2) := by
  have main : ∀ harvest (st : SysState) (cat fallbackSince untilD : String) (useCp : Bool)
      (rows : List Payload),
      NodupKeys st.papers →
      (∀ s u, harvest cat s u = Except.ok rows) →
      ∃ st1, ingest_oai harvest st [cat] fallbackSince untilD useCp
          = (st1, rows.length, none) ∧
        get_oai_checkpoint st1 cat = some untilD ∧ NodupKeys st1.papers := by
    intro harvest st cat fb u ucp rows hnd hok
    obtain ⟨st1, hstep, hcp, hnd1⟩ := ingest_oai_step_ok harvest st cat fb u ucp rows hnd hok
    refine ⟨st1, ?_, hcp, hnd1⟩
    unfold ingest_oai
    rw [hstep]
    show (st1, rows.length + 0, none) = (st1, rows.length, none)
    rw [Nat.add_zero]
  refine ⟨main, ?_, ?_⟩
  · intro harvest st cat fb u ucp e herr
    unfold ingest_oai
    rw [ingest_oai_step_err harvest st cat fb u ucp e herr]
  · intro h1 h2 st cat fb1 fb2 u1 u2 ucp1 ucp2 rows1 rows2 hnd hok1 hok2
    obtain ⟨st1, he1, hcp1, hnd1⟩ := main h1 st cat fb1 u1 ucp1 rows1 hnd hok1
    obtain ⟨st2, he2, hcp2, hnd2⟩ := main h2 st1 cat fb2 u2 ucp2 rows2 hnd1 hok2
    exact ⟨st1, st2, he1, he2, hcp1, hcp2⟩

/-- Witness for C2: an empty store; a harvest returning one record for both
success conjuncts, and a failing harvest for the propagation conjunct. -/
theorem ingest_oai_checkpoint_spec_witness :
    (∃ st1, ingest_oai (fun _ _ _ => Except.ok [samplePayload]) ⟨[], []⟩ ["cs.CV"]
          "2025-01-01" "2025-01-20" true
        = (st1, [samplePayload].length, none) ∧
      get_oai_checkpoint st1 "cs.CV" = some "2025-01-20" ∧ NodupKeys st1.papers) ∧
    ingest_oai (fun _ _ _ => Except.error "HTTP 503") ⟨[], []⟩ ["cs.CV"]
        "2025-01-01" "2025-01-20" true
      = (⟨[], []⟩, 0, some (IngestErr.transport "HTTP 503")) :=
  ⟨ingest_oai_checkpoint_spec.1 (fun _ _ _ => Except.ok [samplePayload]) ⟨[], []⟩
      "cs.CV" "2025-01-01" "2025-01-20" true [samplePayload]
      (by simp [NodupKeys]) (fun _ _ => rfl),
    ingest_oai_checkpoint_spec.2.1 (fun _ _ _ => Except.error "HTTP 503") ⟨[], []⟩
      "cs.CV" "2025-01-01" "2025-01-20" true "HTTP 503" (fun _ _ => rfl)⟩

/-!
Dialect A: the per-entry pipeline of `fetch_arxiv` (`server/services/ingest.py`).
An `AtomEntry` holds what the `_get(tag)` regex extraction and the `findall`
calls return for one `<entry>` chunk; the surrounding single network request is
the caller's (mocked) input.
-/

/-- One Atom `<entry>`, post-extraction. -/
structure AtomEntry where
  idText : Option String
  title : Option String
  summary : Option String
  published : Option String
  updated : Option String
  cats : List String
  authorNames : List String
  links : List (String × String × Option String)
deriving DecidableEq, Repr

/-- The optional `v<digits>` group of the id pattern (greedy digits). -/
def absVersionOpt (l : List Char) : Option Nat :=
  match l with
  | 'v' :: t =>
    match t.takeWhile Char.isDigit with
    | [] => none
    | ds => some (digitsToNat ds)
  | _ => none

/-- Matching the id pattern `(\d{4})\.(\d{4,5})(v(\d+))?` directly after an
`/abs/` occurrence: four digits, a dot, four-or-five digits (greedy, no
backtracking is ever needed because the version group is optional), then the
optional version suffix. -/
def matchAbsTail : List Char → Option (String × Option Nat)
  | a :: b :: c :: d :: '.' :: rest =>
    if a.isDigit && b.isDigit && c.isDigit && d.isDigit then
      match rest with
      | e :: f :: g :: h :: rest2 =>
        if e.isDigit && f.isDigit && g.isDigit && h.isDigit then
          match rest2 with
          | i :: rest3 =>
            if i.isDigit then
              some (String.mk [a, b, c, d, '.', e, f, g, h, i], absVersionOpt rest3)
            else
              some (String.mk [a, b, c, d, '.', e, f, g, h], absVersionOpt rest2)
          | [] => some (String.mk [a, b, c, d, '.', e, f, g, h], none)
        else none
      | _ => none
    else none
  | _ => none

/-- Does the list start with `abs/` (the rest of an `/abs/` occurrence)? -/
def startsAbsTail : List Char → Bool
  | 'a' :: 'b' :: 's' :: '/' :: _ => true
  | _ => false

/-- `re.search(r"/abs/(\d{4}\.\d{4,5})(v(\d+))?", s)`: scan left to right for
an `/abs/` occurrence whose tail matches; a match can only start at `/abs/`,
so advancing one character at a time equals jumping to the next occurrence. -/
def absGo : List Char → Option (String × Option Nat)
  | [] => none
  | c :: rest =>
    if c = '/' ∧ startsAbsTail rest then
      match matchAbsTail (rest.drop 4) with
      | some r => some r
      | none => absGo rest
    else absGo rest

/-- The id/version extraction of `fetch_arxiv` on the `<id>` text. -/
def absSearch (s : String) : Option (String × Option Nat) := absGo s.data

/-- Python truthiness of an optional string (`None` and `""` are falsy). -/
def presentStr (o : Option String) : Option String :=
  match o with
  | none => none
  | some s => if s = "" then none else some s

/-- The joint `try/except` around `dtp.parse(published)` / `dtp.parse(updated)`:
a parse failure of either present field resets BOTH results to `None`. -/
def parsePair (parse : String → Option ParsedStamp) (pub upd : Option String) :
    Option ParsedStamp × Option ParsedStamp :=
  match presentStr pub, presentStr upd with
  | none, none => (none, none)
  | some ps, none =>
    match parse ps with
    | some a => (some a, none)
    | none => (none, none)
  | none, some us =>
    match parse us with
    | some b => (none, some b)
    | none => (none, none)
  | some ps, some us =>
    match parse ps, parse us with
    | some a, some b => (some a, some b)
    | _, _ => (none, none)

/-- The window test: keep when either UTC timestamp exists and is on-or-after
the cutoff. -/
def keepEntryB (cutoff : Int) (pubUtc updUtc : Option Int) : Bool :=
  (match pubUtc with | some t => decide (cutoff ≤ t) | none => false) ||
  (match updUtc with | some t => decide (cutoff ≤ t) | none => false)

/-- `(_type or "").endswith("pdf")`. -/
def endsWithPdf (t : Option String) : Bool :=
  match (t.getD "").data.reverse with
  | 'f' :: 'd' :: 'p' :: _ => true
  | _ => false

/-- The link loop of `fetch_arxiv`: the last `alternate` href is the abstract
page, the last `related` href with a pdf type is the PDF (later wins). -/
def pickLinks (links : List (String × String × Option String)) :
    Option String × Option String :=
  links.foldl (fun acc lk =>
    let acc1 := if lk.2.1 = "alternate" then (acc.1, some lk.1) else acc
    if lk.2.1 = "related" ∧ endsWithPdf lk.2.2 then (some lk.1, acc1.2) else acc1)
    (none, none)

/-- `x or default` for the link fields (an empty href also falls back). -/
def strOrDefault (o : Option String) (d : String) : String :=
  match presentStr o with
  | some s => s
  | none => d

/-- `s.replace("\n", " ")`. -/
def nlToSpace (s : String) : String :=
  String.mk (s.data.map (fun c => if c = Char.ofNat 10 then ' ' else c))

/-- `datetime.isoformat()` of a UTC instant at second resolution. -/
def isoDateTimeUTC (t : Int) : String :=
  let sec := (t % 86400).toNat
  isoDate (t / 86400) ++ "T" ++ pad2 (sec / 3600) ++ ":" ++ pad2 (sec % 3600 / 60)
    ++ ":" ++ pad2 (sec % 60) ++ "+00:00"

/-- The result-dict assembly of `fetch_arxiv` for one kept entry: the default
version is 1, links fall back to the synthesized URLs, timestamps are the
UTC-normalized parses rendered with `isoformat()`. -/
def entryPayloadBuild (e : AtomEntry) (aid : String) (vOpt : Option Nat)
    (pubUtc updUtc : Option Int) : Payload :=
  { arxiv_id := aid, version := vOpt.getD 1,
    title := pyStrip (nlToSpace (e.title.getD "")),
    abstract := pyStrip (nlToSpace (e.summary.getD "")),
    authors := String.intercalate ", " e.authorNames,
    categories := String.intercalate "," e.cats,
    primary_category := e.cats.headD "unknown",
    submitted_at := pubUtc.map isoDateTimeUTC,
    updated_at := updUtc.map isoDateTimeUTC,
    links_pdf := strOrDefault (pickLinks e.links).1
      ("https://arxiv.org/pdf/" ++ aid ++ ".pdf"),
    links_abs := strOrDefault (pickLinks e.links).2
      ("https://arxiv.org/abs/" ++ aid),
    links_html := "https://ar5iv.org/html/" ++ aid,
    extra := [] }

/-- The per-entry pipeline of `fetch_arxiv`: id extraction (entries with no
match are skipped), joint timestamp parsing, window filter, field assembly. -/
def entryPayload (parse : String → Option ParsedStamp) (cutoff : Int)
    (e : AtomEntry) : Option Payload :=
  match absSearch ((e.idText).getD "") with
  | none => none
  | some (aid, vOpt) =>
    let pr := parsePair parse e.published e.updated
    if keepEntryB cutoff (pr.1.map toUTC) (pr.2.map toUTC) then
      some (entryPayloadBuild e aid vOpt (pr.1.map toUTC) (pr.2.map toUTC))
    else none

/-- Embeds the windowed fetch of `fetch_arxiv`: every entry through the
pipeline, dropped entries excluded from the result. -/
def fetch_window (parse : String → Option ParsedStamp) (cutoff : Int)
    (entries : List AtomEntry) : List Payload :=
  entries.filterMap (entryPayload parse cutoff)

theorem isSome_ite_some {α : Type} (c : Bool) (x : α) :
    (if c = true then some x else none).isSome = c := by
  cases c <;> simp

theorem entryPayload_isSome (parse : String → Option ParsedStamp) (cutoff : Int)
    (e : AtomEntry) (aid : String) (vOpt : Option Nat)
    (hid : absSearch ((e.idText).getD "") = some (aid, vOpt)) :
    (entryPayload parse cutoff e).isSome
      = keepEntryB cutoff
          ((parsePair parse e.published e.updated).1.map toUTC)
          ((parsePair parse e.published e.updated).2.map toUTC) := by
  unfold entryPayload
  rw [hid]
  apply isSome_ite_some

/-- C7 (amended): for an entry whose id matches the `/abs/` pattern, the
windowed fetch keeps it iff every present timestamp field parses AND at least
one parsed timestamp (normalized to UTC, naive assumed UTC) is on-or-after the
cutoff; in particular an entry with no parseable timestamp is excluded, and a
parse failure of either present field discards both timestamps and excludes
the entry even when the other is recent. -/
theorem fetch_window_filter (parse : String → Option ParsedStamp) (cutoff : Int)
    (e : AtomEntry) (aid : String) (vOpt : Option Nat)
    (hid : absSearch ((e.idText).getD "") = some (aid, vOpt)) :
    fetch_window parse cutoff [e] ≠ [] ↔
      ((∀ s, presentStr e.published = some s → (parse s).isSome = true) ∧
       (∀ s, presentStr e.updated = some s → (parse s).isSome = true) ∧
       (∃ s p, (presentStr e.published = some s ∨ presentStr e.updated = some s) ∧
          parse s = some p ∧ cutoff ≤ toUTC p)) := by
  have h1 : fetch_window parse cutoff [e] ≠ [] ↔
      (entryPayload parse cutoff e).isSome = true := by
    unfold fetch_window
    cases hep : entryPayload parse cutoff e <;>
      simp [List.filterMap_cons, hep]
  rw [h1, entryPayload_isSome parse cutoff e aid vOpt hid]
  unfold parsePair
  cases hpub : presentStr e.published with
  | none =>
    cases hupd : presentStr e.updated with
    | none => simp [keepEntryB]
    | some us =>
      cases hu : parse us with
      | none => simp [keepEntryB, hu]
      | some b => simp [keepEntryB, hu]
  | some ps =>
    cases hp : parse ps with
    | none =>
      cases hupd : presentStr e.updated with
      | none => simp [keepEntryB, hp]
      | some us =>
        cases hu : parse us with
        | none => simp [keepEntryB, hp, hu]
        | some b => simp [keepEntryB, hp, hu]
    | some a =>
      cases hupd : presentStr e.updated with
      | none => simp [keepEntryB, hp]
      | some us =>
        cases hu : parse us with
        | none => simp [keepEntryB, hp, hu]
        | some b =>
          constructor
          · intro hk
            refine ⟨fun s hs => by cases hs; simp [hp],
              fun s hs => by cases hs; simp [hu], ?_⟩
            have hk2 : cutoff ≤ toUTC a ∨ cutoff ≤ toUTC b := by
              simpa [keepEntryB, hp, hu] using hk
            rcases hk2 with hle | hle
            · exact ⟨ps, a, Or.inl rfl, hp, hle⟩
            · exact ⟨us, b, Or.inr rfl, hu, hle⟩
          · rintro ⟨-, -, s, p, hs | hs, hparse, hle⟩
            · cases hs
              rw [hp] at hparse
              cases hparse
              simp [keepEntryB, hp, hu]
              exact Or.inl hle
            · cases hs
              rw [hu] at hparse
              cases hparse
              simp [keepEntryB, hp, hu]
              exact Or.inr hle

/-- The cutoff `now - days` for the concrete window examples:
2024-09-15T00:00:00Z. -/
def c7cutoff : Int := toUTC ⟨daysFromCivil 2024 9 15, 0, some 0⟩

/-- An entry whose published timestamp is fresh and parseable but whose
updated field is present and unparsable. -/
def c7entry : AtomEntry :=
  { idText := some "http://arxiv.org/abs/2409.01234v2", title := some "T",
    summary := some "S", published := some "2024-09-16T12:00:00Z",
    updated := some "not-a-date", cats := ["cs.CV"], authorNames := ["A"],
    links := [] }

/-- C7 counterexample: this entry's published timestamp parses and lies inside
the window, yet the fetch excludes the entry, because the joint `try/except`
discards both timestamps when the updated field fails to parse — so "keeps an
entry iff at least one of its timestamps is on-or-after the cutoff" is false
as stated. -/
theorem fetch_window_counterexample :
    fetch_window parseDT c7cutoff [c7entry] = [] ∧
    c7entry.published = some "2024-09-16T12:00:00Z" ∧
    parseDT "2024-09-16T12:00:00Z" = some ⟨daysFromCivil 2024 9 16, 43200, some 0⟩ ∧
    c7cutoff ≤ toUTC ⟨daysFromCivil 2024 9 16, 43200, some 0⟩ ∧
    parseDT "not-a-date" = none :=
  ⟨rfl, rfl, rfl, by decide, rfl⟩

/-- The same entry with the unparsable updated field absent. -/
def c7goodEntry : AtomEntry :=
  { idText := some "http://arxiv.org/abs/2409.01234v2", title := some "T",
    summary := some "S", published := some "2024-09-16T12:00:00Z",
    updated := none, cats := ["cs.CV"], authorNames := ["A"], links := [] }

/-- Witness for amended C7: the well-formed entry is kept. -/
theorem fetch_window_filter_witness :
    fetch_window parseDT c7cutoff [c7goodEntry] ≠ [] :=
  (fetch_window_filter parseDT c7cutoff c7goodEntry "2409.01234" (some 2) rfl).mpr
    ⟨fun s hs => by cases hs; rfl,
     fun s hs => Option.noConfusion hs,
     ⟨"2024-09-16T12:00:00Z", ⟨daysFromCivil 2024 9 16, 43200, some 0⟩,
       Or.inl rfl, rfl, by decide⟩⟩

/-- The extraction of a successful `parse_oai_record` run: the output is the
metadata-stage payload for the colon-suffix id and the header datestamp. -/
theorem parse_oai_record_shape (hdr : OAIHeader) (md : ArxMeta) (out : Payload)
    (hp : parse_oai_record ⟨some hdr, some md⟩ = some out) :
    out = parseOAIMeta (lastColonSuffix (pyStrip (hdr.identifier.getD "")))
      hdr.datestamp md := by
  have hp1 : (if hdr.status = some "deleted" then none
      else parseOAIIdStage hdr.identifier hdr.datestamp (some md)) = some out := hp
  by_cases hdel : hdr.status = some "deleted"
  · rw [if_pos hdel] at hp1
    cases hp1
  rw [if_neg hdel] at hp1
  cases hid : hdr.identifier with
  | none =>
    rw [hid] at hp1
    exact absurd hp1 (by simp [parseOAIIdStage])
  | some idRaw =>
    rw [hid] at hp1
    by_cases hide : pyStrip idRaw = ""
    · rw [show parseOAIIdStage (some idRaw) hdr.datestamp (some md) = none from by
        simp [parseOAIIdStage, hide]] at hp1
      cases hp1
    · have hp2 : some (parseOAIMeta (lastColonSuffix (pyStrip idRaw)) hdr.datestamp md)
          = some out := by
        rw [← hp1]
        simp [parseOAIIdStage, hide]
      injection hp2 with h2
      rw [← h2]
      rfl

/-- A fetched entry carrying an explicit `v0` version suffix. -/
def c10entry : AtomEntry :=
  { idText := some "http://arxiv.org/abs/2409.01234v0", title := some "T",
    summary := some "S", published := some "2024-09-16T12:00:00Z",
    updated := none, cats := [], authorNames := [], links := [] }

/-- OAI metadata whose only version entry is labelled `v0`. -/
def c10meta : ArxMeta :=
  { title := some "T", abstract := some "A", authors := [],
    categoriesText := none, created := some "2025-01-01",
    versions := [⟨"v0", some "2025-01-01"⟩] }

/-- C10 counterexample: both normalizers accept inputs that yield version 0 —
a `v0` id suffix in the windowed feed and a `v0` version label in the
incremental feed — so "every accepted record has version ≥ 1" is false. -/
theorem version_positive_counterexample :
    (fetch_window parseDT c7cutoff [c10entry]).map Payload.version = [0] ∧
    (parse_oai_record ⟨some sampleOAIHeader, some c10meta⟩).map Payload.version
      = some 0 :=
  ⟨rfl, rfl⟩

/-- C10 (amended): every record produced by either normalizer has version ≥ 1,
PROVIDED the raw input does not explicitly carry a zero version: for Dialect A
the id's version suffix, when present, must not be `v0`; for Dialect B the
version-history list, when non-empty, must contain at least one label parsing
to a number ≥ 1 (absent or malformed labels count as 0). -/
theorem version_positive_amended :
    (∀ (parse : String → Option ParsedStamp) (cutoff : Int) (e : AtomEntry) (p : Payload),
        entryPayload parse cutoff e = some p →
        (∀ aid : String, absSearch ((e.idText).getD "") ≠ some (aid, some 0)) →
        1 ≤ p.version) ∧
    (∀ (hdr : OAIHeader) (md : ArxMeta) (out : Payload),
        parse_oai_record ⟨some hdr, some md⟩ = some out →
        (md.versions = [] ∨ ∃ v ∈ md.versions, 1 ≤ parseVLabel v.label) →
        1 ≤ out.version) := by
  constructor
  · intro parse cutoff e p hp hno
    cases habs : absSearch ((e.idText).getD "") with
    | none =>
      unfold entryPayload at hp
      rw [habs] at hp
      cases hp
    | some r =>
      obtain ⟨aid, vOpt⟩ := r
      unfold entryPayload at hp
      rw [habs] at hp
      have hp2 : (if keepEntryB cutoff
            ((parsePair parse e.published e.updated).1.map toUTC)
            ((parsePair parse e.published e.updated).2.map toUTC) then
          some (entryPayloadBuild e aid vOpt
            ((parsePair parse e.published e.updated).1.map toUTC)
            ((parsePair parse e.published e.updated).2.map toUTC))
          else none) = some p := hp
      cases hk : keepEntryB cutoff
          ((parsePair parse e.published e.updated).1.map toUTC)
          ((parsePair parse e.published e.updated).2.map toUTC) with
      | false =>
        rw [hk] at hp2
        cases hp2
      | true =>
        rw [hk] at hp2
        simp only [if_true] at hp2
        injection hp2 with h2
        rw [← h2]
        show 1 ≤ vOpt.getD 1
        cases hv : vOpt with
        | none => exact le_refl 1
        | some n =>
          cases n with
          | zero =>
            exfalso
            rw [hv] at habs
            exact hno aid habs
          | succ k => exact Nat.succ_le_succ (Nat.zero_le k)
  · intro hdr md out hp hvers
    rw [parse_oai_record_shape hdr md out hp, (parseOAIMeta_fields _ _ _).2.1]
    rcases hvers with hnil | ⟨v, hv, h1⟩
    · rw [hnil]
      exact le_refl 1
    · cases hvs : md.versions with
      | nil =>
        rw [hvs] at hv
        cases hv
      | cons v0 vt =>
        have hv2 : v ∈ v0 :: vt := hvs ▸ hv
        have hmem : parseVLabel v.label ∈ ((v0 :: vt).map oaiVersionKey).map Prod.fst := by
          rw [List.map_map]
          exact List.mem_map_of_mem _ hv2
        have hle := (le_foldl_max (((v0 :: vt).map oaiVersionKey).map Prod.fst) 0).2 _ hmem
        exact le_trans h1 hle

/-- The payload the well-formed window entry produces. -/
def c7goodPayload : Payload :=
  entryPayloadBuild c7goodEntry "2409.01234" (some 2)
    (some (toUTC ⟨daysFromCivil 2024 9 16, 43200, some 0⟩)) none

/-- Witness for amended C10: both normalizers applied at well-formed inputs. -/
theorem version_positive_amended_witness :
    1 ≤ c7goodPayload.version ∧ 1 ≤ sampleOAIPayload.version :=
  ⟨version_positive_amended.1 parseDT c7cutoff c7goodEntry c7goodPayload rfl
      (fun aid h => by
        have h2 : some 2 = some 0 :=
          congrArg (fun x : String × Option Nat => x.2) (Option.some.inj h)
        exact absurd h2 (by decide)),
    version_positive_amended.2 sampleOAIHeader sampleArxMeta sampleOAIPayload rfl
      (Or.inr ⟨⟨"v1", some "2025-01-02"⟩, by simp [sampleArxMeta], by decide⟩)⟩
